import Mathlib

/-!
Verification of the WeKnora `docreader` text-chunking engine.

Shallow embedding of `docreader/splitter/splitter.py` and
`docreader/utils/sentence_split.py`.  Text is modelled as `List Char`
(a Python `str` is a sequence of code points).  Positions are `Int`
where the source's Python ints may go negative, `Nat` elsewhere.

Two modules imported by `splitter.py` are not part of the provided
sources (`docreader/utils/split.py` and `docreader/splitter/header_hook.py`);
the definitions embedding them are modelled from the specification and
carry a doc comment starting with `Modelled from the spec:`.
-/

namespace DocReader

/-- The whitespace characters stripped by Python's `str.strip()` /
matched by `\s`, restricted to the ASCII forms relevant here
(`' '`, `'\t'`, `'\n'`, `'\r'`, `'\x0b'`, `'\x0c'`). -/
def pyWs (c : Char) : Bool :=
  c = ' ' || c = '\t' || c = '\n' || c = '\r' || c = '\x0B' || c = '\x0C'

/-- Python `s.strip()`: drop leading and trailing whitespace. -/
def pyStrip (l : List Char) : List Char :=
  ((l.dropWhile pyWs).reverse.dropWhile pyWs).reverse

/-- Python slice `t[a:b]` for `0 ≤ a`, `0 ≤ b` (empty when `b ≤ a`). -/
def sl (t : List Char) (a b : Nat) : List Char :=
  (t.drop a).take (b - a)

/-- Python `text.split(d)` for a single-character separator `d`:
the pieces between occurrences of `d`, empties included. -/
def splitOnChar (d : Char) : List Char → List (List Char) :=
  go []
where
  go (acc : List Char) : List Char → List (List Char)
    | [] => [acc.reverse]
    | c :: rest => if c = d then acc.reverse :: go [] rest else go (c :: acc) rest

/-- `re.split(r"([d...])", s)` followed by merging each separator with the
preceding piece, as done by the fallback branches of
`split_chinese_sentences`: split *after* every occurrence of a character
in `ds`, keeping the delimiter attached to the preceding piece. -/
def splitAfterChars (ds : List Char) : List Char → List (List Char) :=
  go []
where
  go (acc : List Char) : List Char → List (List Char)
    | [] => [acc.reverse]
    | c :: rest =>
      if c ∈ ds then (acc.reverse ++ [c]) :: go [] rest else go (c :: acc) rest

/-- `re.findall("([^M]+[M]?)", text)` for the character class `M` of
sentence-end marks: maximal runs of non-mark characters, each followed by
one mark when present; mark characters that cannot start a match are
skipped.  `acc` is the reversed current run. -/
def cnScan (marks : List Char) (acc : List Char) : List Char → List (List Char)
  | [] => if acc = [] then [] else [acc.reverse]
  | c :: rest =>
    if c ∈ marks then
      if acc = [] then cnScan marks [] rest
      else (acc.reverse ++ [c]) :: cnScan marks [] rest
    else cnScan marks (c :: acc) rest

/-- `split_chinese_sentences` from `docreader/utils/sentence_split.py`:
primary split on the sentence-end character class, strip and drop empties,
then the over-length fallbacks (semicolon, then colon, else keep). -/
def split_chinese_sentences (text : List Char) (marksArg : Option (List Char))
    (maxLen : Nat) : List (List Char) :=
  let marks := marksArg.getD ['。', '！', '？', '；']
  if text = [] ∨ pyStrip text = [] then []
  else
    let sentences := ((cnScan marks [] text).map pyStrip).filter (· ≠ [])
    sentences.flatMap fun sent =>
      if sent.length ≤ maxLen then [sent]
      else if '；' ∈ sent then
        ((splitAfterChars ['；'] sent).map pyStrip).filter (· ≠ [])
      else if '：' ∈ sent ∨ ':' ∈ sent then
        ((splitAfterChars ['：', ':'] sent).map pyStrip).filter (· ≠ [])
      else [sent]

/-- Does the reversed accumulator end (in text order) with an English
sentence-end mark?  Implements the lookbehind `(?<=[.!?;])`. -/
def endsEnMark (acc : List Char) : Bool :=
  match acc with
  | [] => false
  | p :: _ => p = '.' || p = '!' || p = '?' || p = ';'

theorem length_dropWhile_le {α : Type} (p : α → Bool) (l : List α) :
    (l.dropWhile p).length ≤ l.length := by
  induction l with
  | nil => simp
  | cons c r ih =>
    simp only [List.dropWhile_cons]
    split
    · exact Nat.le_succ_of_le ih
    · simp

theorem dropWhile_ws_cons_lt (c : Char) (rest : List Char) (hc : pyWs c = true) :
    ((c :: rest).dropWhile pyWs).length < (c :: rest).length := by
  simp only [List.dropWhile_cons, hc, if_true]
  exact Nat.lt_succ_of_le (length_dropWhile_le _ _)

/-- `re.split(r"(?<=[.!?;])\s+(?=[A-Z])", text)`: split at every maximal
whitespace run that is preceded by one of `.!?;` and followed by an
upper-case letter; the matched whitespace is removed.  `acc` is the
reversed current piece. -/
def enScan (acc : List Char) : List Char → List (List Char)
  | [] => [acc.reverse]
  | c :: rest =>
    if hw : pyWs c ∧ endsEnMark acc then
      let run := (c :: rest).takeWhile pyWs
      let after := (c :: rest).dropWhile pyWs
      let a := after.headD 'a'
      if 'A' ≤ a ∧ a ≤ 'Z' then acc.reverse :: enScan [] after
      else if after = [] then [acc.reverse ++ run]
      else enScan (run.reverse ++ acc) after
    else enScan (c :: acc) rest
termination_by l => l.length
decreasing_by
  · exact dropWhile_ws_cons_lt c rest hw.1
  · exact dropWhile_ws_cons_lt c rest hw.1
  · simp

/-- `split_english_sentences` from `docreader/utils/sentence_split.py`.
Note: the `sentence_end_marks` argument is assigned a default when `None`
and is never read afterwards — both the split pattern and the semicolon
fallback are hard-coded. -/
def split_english_sentences (text : List Char) (marksArg : Option (List (List Char)))
    (maxLen : Nat) : List (List Char) :=
  let _marks := marksArg.getD [['.'], ['!'], ['?'], [';']]
  if text = [] ∨ pyStrip text = [] then []
  else
    let sentences := ((enScan [] text).map pyStrip).filter (· ≠ [])
    sentences.flatMap fun sent =>
      if sent.length ≤ maxLen then [sent]
      else if ';' ∈ sent then
        (splitOnChar ';' sent).filterMap fun s =>
          let s' := pyStrip s
          if s' = [] then none
          else some (if s'.getLastD ' ' = ';' then s' else s' ++ [';'])
      else [sent]

/-- Normalize line endings: `text.replace('\r\n', '\n').replace('\r', '\n')`. -/
def normNl : List Char → List Char
  | [] => []
  | '\r' :: '\n' :: rest => '\n' :: normNl rest
  | '\r' :: rest => '\n' :: normNl rest
  | c :: rest => c :: normNl rest

/-- `re.split(r"\n\n+", text)`: split at every maximal run of two or more
newlines (the run is removed).  `acc` is the reversed current piece and
`pend` the number of pending newline characters not yet classified. -/
def splitNN (acc : List Char) (pend : Nat) : List Char → List (List Char)
  | [] =>
    if pend ≥ 2 then [acc.reverse, []]
    else [acc.reverse ++ List.replicate pend '\n']
  | '\n' :: rest => splitNN acc (pend + 1) rest
  | c :: rest =>
    if pend ≥ 2 then acc.reverse :: splitNN [c] 0 rest
    else splitNN (c :: (List.replicate pend '\n').reverse ++ acc) 0 rest

/-- Python `text.find(part, from)` (as list index): the least index
`≥ from` at which `part` occurs as a contiguous sublist, if any. -/
def findSub (part : List Char) (idx : Nat) : List Char → Option Nat
  | [] => if part = [] then some idx else none
  | c :: rest =>
    if part.isPrefixOf (c :: rest) then some idx else findSub part (idx + 1) rest

/-- The body of the `for part in parts` loop of `split_paragraphs`:
skip blank parts (advancing by `len(part) + 2`), locate each non-blank
part via `find` (falling back to the running position), emit
`(start, end, part.strip())` and advance past trailing newlines. -/
def paraLoop (t : List Char) : List (List Char) → Nat → List (Nat × Nat × List Char)
  | [], _ => []
  | part :: parts, pos =>
    if pyStrip part = [] then paraLoop t parts (pos + part.length + 2)
    else
      let start := (findSub part pos (t.drop pos)).getD pos
      let stop := start + part.length
      let afterNl := stop + ((t.drop stop).takeWhile (· = '\n')).length
      (start, stop, pyStrip part) :: paraLoop t parts afterNl

/-- `split_paragraphs` from `docreader/utils/sentence_split.py`. -/
def split_paragraphs (text : List Char) : List (Nat × Nat × List Char) :=
  if text = [] then []
  else
    let t := normNl text
    paraLoop t (splitNN [] 0 t) 0

/-- Search `text[i]`, `text[i-1]`, …, `text[stop+1]` for the first
whitespace character (`' '`, `'\t'`, `'\n'`), as in the backward loop of
`split_at_nearest_space`. -/
def downSearch (text : List Char) : Nat → Nat → Option Nat
  | 0, _ => none
  | i + 1, stop =>
    if i + 1 ≤ stop then none
    else if text.getD (i + 1) 'x' = ' ' ∨ text.getD (i + 1) 'x' = '\t'
        ∨ text.getD (i + 1) 'x' = '\n' then some (i + 1)
    else downSearch text i stop

/-- Search `text[i]`, `text[i+1]`, … for `fuel` steps for the first
whitespace character, as in the forward loop of `split_at_nearest_space`. -/
def upSearch (text : List Char) : Nat → Nat → Option Nat
  | 0, _ => none
  | fuel + 1, i =>
    if text.getD i 'x' = ' ' ∨ text.getD i 'x' = '\t' ∨ text.getD i 'x' = '\n' then
      some i
    else upSearch text fuel (i + 1)

/-- `split_at_nearest_space` from `docreader/utils/sentence_split.py`. -/
def split_at_nearest_space (text : List Char) (targetPos : Nat) (window : Nat) : Nat :=
  if targetPos ≥ text.length then text.length
  else
    match downSearch text targetPos (targetPos - window) with
    | some i => i
    | none =>
      match upSearch text (min text.length (targetPos + window) - targetPos) targetPos with
      | some i => i
      | none => targetPos

/-- A chunk as returned by `split_text`: `(start, end, content)`.
Positions are Python ints (they can go negative in paragraph-aware mode
when the overlap exceeds a chunk's length). -/
abbrev Chunk : Type := Int × Int × List Char

theorem pyStrip_length_le (l : List Char) : (pyStrip l).length ≤ l.length := by
  unfold pyStrip
  calc ((l.dropWhile pyWs).reverse.dropWhile pyWs).reverse.length
      = ((l.dropWhile pyWs).reverse.dropWhile pyWs).length := List.length_reverse _
    _ ≤ (l.dropWhile pyWs).reverse.length := length_dropWhile_le _ _
    _ = (l.dropWhile pyWs).length := List.length_reverse _
    _ ≤ l.length := length_dropWhile_le _ _

/-- The hard-split loop of `_split_long_paragraph`: while the remainder is
over `chunk_size`, cut at the nearest whitespace (window 100), strip both
sides, and finally keep the non-empty remainder.  Entered by the caller
for every sentence; a sentence within bounds is passed through unchanged.
`fuel` bounds the iterations (the wrapper passes the sentence length,
which suffices for the default length function `List.length` with
`chunk_size ≥ 1`, where every cut removes at least one character, so the
fuel-exhausted branch is unreachable there; for other length functions —
or for `chunk_size = 0` — the source loop need not terminate, and the
fuel-exhausted branch would misrepresent that divergence as a return, so
theorems about that regime must not rely on this fueled version). -/
def hardSplitF (lenFn : List Char → Nat) (cs : Nat) :
    Nat → List Char → List (List Char)
  | 0, remaining =>
    if lenFn remaining > cs then [remaining]
    else if remaining = [] then [] else [remaining]
  | fuel + 1, remaining =>
    if lenFn remaining > cs then
      let sp := split_at_nearest_space remaining cs 100
      pyStrip (remaining.take sp) :: hardSplitF lenFn cs fuel (pyStrip (remaining.drop sp))
    else if remaining = [] then [] else [remaining]

def hardSplit (lenFn : List Char → Nat) (cs : Nat) (sent : List Char) :
    List (List Char) :=
  hardSplitF lenFn cs sent.length sent

/-- The overlap-retention loop of `_split_long_paragraph`: walk the closed
buffer from its end, keeping trailing sentences while their combined
length stays within `chunk_overlap`.  The first argument is the reversed
buffer. -/
def keepOverlapGo (lenFn : List Char → Nat) (ov : Nat) :
    List (List Char) → List (List Char) → Nat → List (List Char) × Nat
  | [], kept, n => (kept, n)
  | s :: rest, kept, n =>
    if n + lenFn s > ov then (kept, n)
    else keepOverlapGo lenFn ov rest (s :: kept) (n + lenFn s)

def keepOverlap (lenFn : List Char → Nat) (ov : Nat) (buf : List (List Char)) :
    List (List Char) × Nat :=
  keepOverlapGo lenFn ov buf.reverse [] 0

/-- The sentence-merging loop of `_split_long_paragraph`: accumulate
sentences until the next would exceed `chunk_size`, close the chunk, keep
an overlap-bounded trailing buffer, and flush the remainder at the end. -/
def mergePara (lenFn : List Char → Nat) (cs ov : Nat) :
    List (List Char) → List (List Char) → Nat → List (List Char) → List (List Char)
  | [], buf, _, chunks => chunks ++ (if buf = [] then [] else [buf.flatten])
  | s :: rest, buf, curLen, chunks =>
    let sLen := lenFn s
    if curLen + sLen > cs ∧ buf ≠ [] then
      let closed := chunks ++ [buf.flatten]
      if ov > 0 then
        let kept := keepOverlap lenFn ov buf
        mergePara lenFn cs ov rest (kept.1 ++ [s]) (kept.2 + sLen) closed
      else mergePara lenFn cs ov rest [s] sLen closed
    else mergePara lenFn cs ov rest (buf ++ [s]) (curLen + sLen) chunks

/-- The position-assignment loop at the end of `_split_long_paragraph`:
walk forward from the paragraph start, advancing by chunk length minus
overlap (approximate positions; can go negative). -/
def toPositionTuples (ov : Nat) : Int → List (List Char) → List Chunk
  | _, [] => []
  | pos, c :: rest =>
    let stop := pos + (c.length : Int)
    (pos, stop, c) :: toPositionTuples ov (if ov > 0 then stop - (ov : Int) else stop) rest

/-- The language-selected sentence split of `_split_long_paragraph`
(`max_len = 2 * chunk_size`; for English the marks are filtered to
`.!?;`). -/
def paraSentences (cs : Nat) (language : List Char) (marks : List Char)
    (paraText : List Char) : List (List Char) :=
  if language = ['z', 'h'] then
    split_chinese_sentences paraText (some marks) (cs * 2)
  else
    split_english_sentences paraText
      (some ((marks.filter (· ∈ ['.', '!', '?', ';'])).map (fun c => [c]))) (cs * 2)

/-- The sentence/fragment list of `_split_long_paragraph` after the
hard-split pass. -/
def processedSentences (lenFn : List Char → Nat) (cs : Nat)
    (language : List Char) (marks : List Char) (paraText : List Char) :
    List (List Char) :=
  (paraSentences cs language marks paraText).flatMap (hardSplit lenFn cs)

/-- `_split_long_paragraph` from `docreader/splitter/splitter.py`. -/
def splitLongParagraph (lenFn : List Char → Nat) (cs ov : Nat)
    (language : List Char) (marks : List Char) (paraText : List Char)
    (paraStart : Int) : List Chunk :=
  toPositionTuples ov paraStart
    (mergePara lenFn cs ov (processedSentences lenFn cs language marks paraText) [] 0 [])

/-- `_split_text_paragraph_aware` from `docreader/splitter/splitter.py`. -/
def splitTextParagraphAware (lenFn : List Char → Nat) (cs ov : Nat)
    (language : List Char) (marks : List Char) (text : List Char) : List Chunk :=
  (split_paragraphs text).flatMap fun p =>
    if lenFn p.2.2 ≤ cs then [((p.1 : Int), (p.2.1 : Int), p.2.2)]
    else splitLongParagraph lenFn cs ov language marks p.2.2 (p.1 : Int)

/-- Modelled from the spec: `split_by_sep` from `docreader/utils/split.py`
is not among the provided sources.  Per §4.2 the separators are retained in
the output so that concatenating the pieces reproduces the input; we attach
each separator occurrence to the end of the preceding piece and drop empty
pieces.  `fuel` bounds the number of characters consumed (the wrapper
passes the text length, which suffices since every step consumes at least
one character).  `acc` is the reversed pending piece. -/
def splitKeepSepF (sep : List Char) : Nat → List Char → List Char → List (List Char)
  | _, acc, [] => if acc = [] then [] else [acc.reverse]
  | 0, acc, text => [acc.reverse ++ text]
  | fuel + 1, acc, c :: rest =>
    if sep ≠ [] ∧ sep.isPrefixOf (c :: rest) then
      (acc.reverse ++ sep) :: splitKeepSepF sep fuel [] ((c :: rest).drop sep.length)
    else splitKeepSepF sep fuel (c :: acc) rest

def splitKeepSep (sep : List Char) (text : List Char) : List (List Char) :=
  splitKeepSepF sep text.length [] text

/-- Modelled from the spec: `split_by_char` from `docreader/utils/split.py`
is not among the provided sources.  Per §4.2 it is the character-level
fallback: every character becomes its own piece. -/
def splitByChar (text : List Char) : List (List Char) :=
  text.map (fun c => [c])

/-- The `for split_fn in self._split_fns` loop of `_split`: return the
first result with more than one piece, else the last function's result
(the variable retains the last computed value). -/
def firstSplit : List (List Char → List (List Char)) → List Char → List (List Char)
  | [], _ => []
  | [f], text => f text
  | f :: g :: fs, text =>
    let s := f text
    if s.length > 1 then s else firstSplit (g :: fs) text

/-- `_split` from `docreader/splitter/splitter.py`, with an explicit fuel
(structural recursion); the wrapper passes `text.length`.  For the default
length function `List.length` with `chunk_size ≥ 1` the fuel always
suffices — every piece of a successful split is strictly shorter — so the
fuel-exhausted branch is unreachable there.  For other length functions
the source itself can recurse forever (a constant length function above
`chunk_size` recurses on the same single character indefinitely), so the
fuel-exhausted return misrepresents that divergence; theorems quantifying
over the length function must use the divergence-aware `splitUnitsD`
instead. -/
def splitUnitsF (lenFn : List Char → Nat) (cs : Nat) (seps : List (List Char)) :
    Nat → List Char → List (List Char)
  | 0, text => [text]
  | fuel + 1, text =>
    if lenFn text ≤ cs then [text]
    else
      let pieces := firstSplit ((seps.map splitKeepSep) ++ [splitByChar]) text
      pieces.flatMap fun p =>
        if lenFn p ≤ cs then [p] else splitUnitsF lenFn cs seps fuel p

def splitUnits (lenFn : List Char → Nat) (cs : Nat) (seps : List (List Char))
    (text : List Char) : List (List Char) :=
  splitUnitsF lenFn cs seps text.length text

/-- Divergence-aware embedding of `_split` for an arbitrary length
function: `none` means the recursion has not produced a result within the
given depth.  If `splitUnitsD … fuel text = none` for every `fuel`, the
source `_split` never returns on `text` (in Python, a `RecursionError`
reaches the caller).  On the faithful domain of the fueled version
(`List.length`, `chunk_size ≥ 1`, enough fuel) the two agree. -/
def splitUnitsD (lenFn : List Char → Nat) (cs : Nat) (seps : List (List Char)) :
    Nat → List Char → Option (List (List Char))
  | 0, _ => none
  | fuel + 1, text =>
    if lenFn text ≤ cs then some [text]
    else
      (firstSplit ((seps.map splitKeepSep) ++ [splitByChar]) text).foldr
        (fun p acc =>
          match (if lenFn p ≤ cs then some [p]
                 else splitUnitsD lenFn cs seps fuel p), acc with
          | some here, some rest => some (here ++ rest)
          | _, _ => none)
        (some [])

/-- A protected span: start offset into the original text, plus the
protected substring, as produced by `_split_protected`. -/
structure PSpan where
  start : Nat
  content : List Char
deriving DecidableEq, Repr

/-- Strict order on `(start, end)` matches by the Python sort key
`(x[0], -x[1])`: start ascending, then end descending. -/
def matchKeyLt (a b : Nat × Nat) : Bool :=
  a.1 < b.1 || (a.1 = b.1 && b.2 < a.2)

def insertMatch (x : Nat × Nat) : List (Nat × Nat) → List (Nat × Nat)
  | [] => [x]
  | y :: ys => if matchKeyLt x y then x :: y :: ys else y :: insertMatch x ys

/-- `matches.sort(key=lambda x: (x[0], -x[1]))` (insertion sort; the key
has no duplicates with distinct payloads, so stability is immaterial). -/
def sortMatches : List (Nat × Nat) → List (Nat × Nat)
  | [] => []
  | x :: xs => insertMatch x (sortMatches xs)

/-- `_split_protected` from `docreader/splitter/splitter.py`, with the
regex-match positions `(m.start(), m.end())` of the protected patterns
supplied as input (`re.finditer` itself is external to the embedding).
Sort by `(start, -end)`, then fold: keep a match only if it starts at or
after the furthest end seen so far and is shorter than `chunk_size`;
always advance the furthest end. -/
def protStep (cs : Nat) (text : List Char) (acc : Int × List PSpan)
    (m : Nat × Nat) : Int × List PSpan :=
  if (m.1 : Int) ≥ acc.1 then
    if (m.2 : Int) - (m.1 : Int) < (cs : Int) then
      (max acc.1 (m.2 : Int), acc.2 ++ [⟨m.1, sl text m.1 m.2⟩])
    else (max acc.1 (m.2 : Int), acc.2)
  else (max acc.1 (m.2 : Int), acc.2)

def splitProtected (cs : Nat) (text : List Char) (ms : List (Nat × Nat)) :
    List PSpan :=
  ((sortMatches ms).foldl (protStep cs text) ((-1 : Int), [])).2

/-- Python slice `s[k:]` including the negative-index case. -/
def pySliceFrom (s : List Char) (k : Int) : List Char :=
  if k < 0 then s.drop (max 0 ((s.length : Int) + k)).toNat else s.drop k.toNat

/-- The inner `while j < len(protect)` loop of `_join`, for one split:
emit the part of `cur` before the pending span, the span itself, and skip
the covered part of `cur`; stop when the next span lies beyond this split
(`stop`) or `cur` is exhausted.  Returns (emitted pieces, remaining spans,
remaining cur, new point). -/
def joinLoop : List PSpan → List Char → Nat → Nat →
    List (List Char) × List PSpan × List Char × Nat
  | [], cur, point, _ => ([], [], cur, point)
  | p :: ps, cur, point, stop =>
    let pStart := p.start
    let pEnd := p.start + p.content.length
    if stop ≤ pStart then ([], p :: ps, cur, point)
    else
      let em1 : List (List Char) := if point < pStart then [cur.take (pStart - point)] else []
      let cur1 := if point < pStart then cur.drop (pStart - point) else cur
      let point1 := if point < pStart then pStart else point
      let cur2 := if point1 < pEnd then cur1.drop (pEnd - point1) else cur1
      let point2 := if point1 < pEnd then pEnd else point1
      if cur2 = [] then (em1 ++ [p.content], ps, [], point2)
      else
        let r := joinLoop ps cur2 point2 stop
        (em1 ++ [p.content] ++ r.1, r.2.1, r.2.2.1, r.2.2.2)

/-- The outer `for split in splits` loop of `_join`. -/
def joinGo : List (List Char) → List PSpan → Nat → Nat → List (List Char)
  | [], _, _, _ => []
  | split :: rest, ps, point, start =>
    let stop := start + split.length
    let cur := pySliceFrom split ((point : Int) - (start : Int))
    let r := joinLoop ps cur point stop
    if r.2.2.1 = [] then r.1 ++ joinGo rest r.2.1 r.2.2.2 stop
    else (r.1 ++ [r.2.2.1]) ++ joinGo rest r.2.1 stop stop

/-- `_join` from `docreader/splitter/splitter.py`. -/
def joinSplits (splits : List (List Char)) (protect : List PSpan) : List (List Char) :=
  joinGo splits protect 0 0

/-- Python `p in s` for strings: `p` occurs as a contiguous substring. -/
def isSubstring (p : List Char) : List Char → Bool
  | [] => p.isPrefixOf ([] : List Char)
  | c :: rest => p.isPrefixOf (c :: rest) || isSubstring p rest

/-- Modelled from the spec: `HeaderTracker` from
`docreader/splitter/header_hook.py` is not among the provided sources.
Per §6 it exposes `update(fragment)` (which may update the heading state on
seeing Markdown heading markers) and `get_headers()` (the current heading
prefix).  We model the state as the most recent line starting with `'#'`
fed to `update`; `get_headers` returns the state unchanged. -/
def headerUpdate (st : List Char) (frag : List Char) : List Char :=
  match (splitOnChar '\n' frag).filter (fun l => l.headD ' ' = '#') with
  | [] => st
  | ls => ls.getLastD []

/-- The overlap pop loop of `_merge`: drop leading buffer entries while the
retained length exceeds `chunk_overlap` or the new split (plus headers)
would not fit. -/
def popLoop (lenFn : List Char → Nat) (cs ov sLen hLen : Nat) :
    List Chunk → Nat → List Chunk × Nat
  | [], n => ([], n)
  | c :: rest, n =>
    if n > ov ∨ n + sLen + hLen > cs then
      popLoop lenFn cs ov sLen hLen rest (n - lenFn c.2.2)
    else (c :: rest, n)

/-- State of the `for split in splits` loop of `_merge`. -/
structure MergeSt where
  chunks : List Chunk
  cur : List Chunk
  curLen : Nat
  curStart : Int
  hook : List Char

/-- Emit the pending buffer as a chunk:
`(cur[0][0], cur[-1][1], "".join(texts))`. -/
def emitChunk (cur : List Chunk) : Chunk :=
  ((cur.headD (0, 0, [])).1, (cur.getLastD (0, 0, [])).2.1, (cur.map (·.2.2)).flatten)

/-- One iteration of the `for split in splits` loop of `_merge`. -/
def mergeStep (lenFn : List Char → Nat) (cs ov : Nat) (st : MergeSt)
    (split : List Char) : MergeSt :=
  let curEnd := st.curStart + (split.length : Int)
  let splitLen := lenFn split
  let hook' := headerUpdate st.hook split
  let headersLen0 := lenFn hook'
  let headers := if headersLen0 > cs then [] else hook'
  let headersLen := if headersLen0 > cs then 0 else headersLen0
  if st.curLen + splitLen + headersLen > cs then
    let chunks' := if st.cur = [] then st.chunks else st.chunks ++ [emitChunk st.cur]
    let pr := popLoop lenFn cs ov splitLen headersLen st.cur st.curLen
    let doIns := headers ≠ [] ∧ splitLen + headersLen < cs ∧ isSubstring headers split = false
    let nextStart := match pr.1 with | [] => st.curStart | c :: _ => c.1
    let cur2 := if doIns then
        (max 0 (nextStart - (headersLen : Int)), curEnd, headers) :: pr.1
      else pr.1
    let len2 := if doIns then pr.2 + headersLen else pr.2
    { chunks := chunks', cur := cur2 ++ [(st.curStart, curEnd, split)],
      curLen := len2 + splitLen, curStart := curEnd, hook := hook' }
  else
    { chunks := st.chunks, cur := st.cur ++ [(st.curStart, curEnd, split)],
      curLen := st.curLen + splitLen, curStart := curEnd, hook := hook' }

/-- `_merge` from `docreader/splitter/splitter.py`.  Returns `none` when
the final `assert cur_chunk` would fail, together with the header-tracker
state after the call. -/
def mergeLegacy (lenFn : List Char → Nat) (cs ov : Nat) (hook0 : List Char)
    (splits : List (List Char)) : Option (List Chunk) × List Char :=
  let fin := splits.foldl (mergeStep lenFn cs ov) ⟨[], [], 0, 0, hook0⟩
  if fin.cur = [] then (none, fin.hook)
  else (some (fin.chunks ++ [emitChunk fin.cur]), fin.hook)

/-- The configuration fields of `TextSplitter`. -/
structure Config where
  chunk_size : Nat
  chunk_overlap : Nat
  separators : List (List Char)
  paragraph_aware : Bool
  language : List Char
  sentence_end_punctuation : List Char
  len_function : List Char → Nat

/-- The `chunk_overlap > chunk_size` check in `TextSplitter.__init__`:
the only exception the engine raises, at construction time. -/
def mkTextSplitter (cfg : Config) : Except String Config :=
  if cfg.chunk_overlap > cfg.chunk_size then
    .error "Got a larger chunk overlap than chunk size, should be smaller."
  else .ok cfg

/-- `split_text` from `docreader/splitter/splitter.py`.  The regex-match
positions for the protected patterns are supplied as input; the
header-tracker state is threaded explicitly (it lives on the splitter
instance and persists across calls).  `none` models an `AssertionError`
(the reconstruction assert, or the final non-empty-buffer assert in
`_merge`). -/
def split_text (cfg : Config) (ms : List (Nat × Nat)) (hook : List Char)
    (text : List Char) : Option (List Chunk) × List Char :=
  if text = [] then (some [], hook)
  else if cfg.paragraph_aware then
    (some (splitTextParagraphAware cfg.len_function cfg.chunk_size cfg.chunk_overlap
      cfg.language cfg.sentence_end_punctuation text), hook)
  else
    let splits := splitUnits cfg.len_function cfg.chunk_size cfg.separators text
    let protect := splitProtected cfg.chunk_size text ms
    let joined := joinSplits splits protect
    if joined.flatten = text then
      mergeLegacy cfg.len_function cfg.chunk_size cfg.chunk_overlap hook joined
    else (none, hook)

/-! ### Basic lemmas about slices -/

theorem sl_eq_drop_take (t : List Char) (a b : Nat) :
    sl t a b = (t.drop a).take (b - a) := rfl

theorem sl_length (t : List Char) (a b : Nat) :
    (sl t a b).length = min (b - a) (t.length - a) := by
  simp [sl, List.length_take, List.length_drop]

theorem sl_length_of_le (t : List Char) (a b : Nat) (hab : a ≤ b)
    (hb : b ≤ t.length) : (sl t a b).length = b - a := by
  rw [sl_length]; omega

theorem sl_append_drop (t : List Char) (a b : Nat) (hab : a ≤ b) :
    sl t a b ++ t.drop b = t.drop a := by
  have h1 : t.drop b = (t.drop a).drop (b - a) := by
    rw [List.drop_drop]; congr 1; omega
  rw [sl, h1, List.take_append_drop]

theorem sl_take (t : List Char) (a b c : Nat) (hac : a ≤ c) (hcb : c ≤ b) :
    (sl t a b).take (c - a) = sl t a c := by
  simp only [sl, List.take_take]
  congr 1
  omega

theorem sl_drop (t : List Char) (a b c : Nat) (hac : a ≤ c) :
    (sl t a b).drop (c - a) = sl t c b := by
  simp only [sl, List.drop_take, List.drop_drop]
  have h1 : a + (c - a) = c := by omega
  have h2 : b - a - (c - a) = b - c := by omega
  rw [h1, h2]

theorem sl_all (t : List Char) : sl t 0 t.length = t := by
  simp [sl]

theorem sl_append_sl (t : List Char) (a c b : Nat) (hac : a ≤ c) (hcb : c ≤ b) :
    sl t a c ++ sl t c b = sl t a b := by
  have h1 : t.drop c = (t.drop a).drop (c - a) := by
    rw [List.drop_drop]; congr 1; omega
  have h2 : b - a = (c - a) + (b - c) := by omega
  rw [sl, sl, sl, h1, h2, List.take_add]

theorem sl_eq_nil (t : List Char) (a b : Nat) (h : min b t.length ≤ a) :
    sl t a b = [] := by
  rw [← List.length_eq_zero, sl_length]
  omega

theorem sl_nil_le (t : List Char) (a b : Nat) (h : sl t a b = []) :
    min b t.length ≤ a := by
  by_contra hc
  have := sl_length t a b
  rw [h] at this
  simp at this
  omega

/-! ### C9: `split_english_sentences` ignores its `sentence_end_marks` -/

/-- C9: the result of `split_english_sentences` is independent of its
`sentence_end_marks` argument — the argument is assigned a default when
`None` and never read; both the split pattern and the semicolon fallback
are hard-coded. -/
theorem c9_english_marks_unused (text : List Char) (maxLen : Nat)
    (m1 m2 : Option (List (List Char))) :
    split_english_sentences text m1 maxLen = split_english_sentences text m2 maxLen :=
  rfl

/-! ### C8: legacy overlap bound -/

/-- C8: in legacy mode, whenever a chunk is closed in `_merge`, the pop
loop (`popLoop`, lines 433–443 of `splitter.py`) leaves a retained buffer
whose total length under the length function is at most `chunk_overlap`:
either it pops down to a length that is both `≤ chunk_overlap` and leaves
room for the incoming split, or it empties the buffer entirely. -/
theorem c8_overlap_bound (lenFn : List Char → Nat) (cs ov sLen hLen : Nat)
    (cur : List Chunk) (n : Nat)
    (hn : n = (cur.map (fun c => lenFn c.2.2)).sum) :
    (((popLoop lenFn cs ov sLen hLen cur n).1.map (fun c => lenFn c.2.2)).sum ≤ ov) := by
  induction cur generalizing n with
  | nil => simp [popLoop]
  | cons c rest ih =>
    rw [popLoop]
    split
    · exact ih (n - lenFn c.2.2) (by simp at hn; omega)
    · rename_i hcond
      push_neg at hcond
      rw [← hn]
      exact hcond.1

/-! ### C3: protected-span extraction -/

/-- Positions returned by `re.finditer`: every match satisfies
`start ≤ end ≤ len(text)`. -/
def WFMatches (text : List Char) (ms : List (Nat × Nat)) : Prop :=
  ∀ m ∈ ms, m.1 ≤ m.2 ∧ m.2 ≤ text.length

/-- The span's content is the slice of the original text at its position,
and it lies within the text. -/
def SpanOk (text : List Char) (sp : PSpan) : Prop :=
  sp.start + sp.content.length ≤ text.length ∧
  sp.content = sl text sp.start (sp.start + sp.content.length)

/-- Consecutive spans are ordered and non-overlapping: each span ends at
or before the next one starts. -/
def SpansChain (ps : List PSpan) : Prop :=
  List.Chain' (fun a b => a.start + a.content.length ≤ b.start) ps

instance (text : List Char) (ms : List (Nat × Nat)) : Decidable (WFMatches text ms) :=
  inferInstanceAs (Decidable (∀ m ∈ ms, m.1 ≤ m.2 ∧ m.2 ≤ text.length))

instance (text : List Char) (sp : PSpan) : Decidable (SpanOk text sp) :=
  inferInstanceAs (Decidable (_ ∧ _))

instance (ps : List PSpan) : Decidable (SpansChain ps) :=
  inferInstanceAs (Decidable (List.Chain' _ ps))

/-- Invariant of the `_split_protected` fold: the kept spans are chained,
well-formed, end at or before the running furthest end `acc.1`, and each
is one of the original matches, shorter than `chunk_size`. -/
def ProtInv (cs : Nat) (text : List Char) (ms0 : List (Nat × Nat))
    (acc : Int × List PSpan) : Prop :=
  SpansChain acc.2 ∧
  ∀ sp ∈ acc.2, SpanOk text sp ∧
    ((sp.start : Int) + (sp.content.length : Int) ≤ acc.1) ∧
    ∃ m ∈ ms0, sp.start = m.1 ∧ sp.content = sl text m.1 m.2 ∧
      (m.2 : Int) - (m.1 : Int) < (cs : Int)

theorem protStep_inv (cs : Nat) (text : List Char) (ms0 : List (Nat × Nat))
    (acc : Int × List PSpan) (m : Nat × Nat) (hm : m ∈ ms0)
    (hwf : m.1 ≤ m.2 ∧ m.2 ≤ text.length) (h : ProtInv cs text ms0 acc) :
    ProtInv cs text ms0 (protStep cs text acc m) := by
  obtain ⟨hchain, hsp⟩ := h
  have hlen : (sl text m.1 m.2).length = m.2 - m.1 :=
    sl_length_of_le _ _ _ hwf.1 hwf.2
  unfold protStep
  split
  · rename_i hge
    split
    · rename_i hsize
      constructor
      · -- chain with the new span appended
        rw [SpansChain, List.chain'_append]
        refine ⟨hchain, List.chain'_singleton _, ?_⟩
        intro a ha y hy
        simp only [List.head?_cons, Option.mem_def, Option.some.injEq] at hy
        subst hy
        have hmem : a ∈ acc.2 := List.mem_of_mem_getLast? ha
        have := (hsp a hmem).2.1
        simp only
        have : (a.start : Int) + (a.content.length : Int) ≤ (m.1 : Int) :=
          le_trans this hge
        exact_mod_cast this
      · intro sp hs
        rcases List.mem_append.1 hs with hold | hnew
        · obtain ⟨hok, hend, hexist⟩ := hsp sp hold
          exact ⟨hok, le_trans hend (le_max_left _ _), hexist⟩
        · simp only [List.mem_singleton] at hnew
          subst hnew
          refine ⟨⟨?_, ?_⟩, ?_, ⟨m, hm, rfl, rfl, ?_⟩⟩
          · simp only [hlen]; omega
          · simp only [hlen]
            congr 1
            omega
          · simp only [hlen]
            have : ((m.2 - m.1 : Nat) : Int) = (m.2 : Int) - (m.1 : Int) := by
              omega
            rw [this]
            have : (m.1 : Int) + ((m.2 : Int) - (m.1 : Int)) = (m.2 : Int) := by ring
            rw [this]
            exact le_max_right _ _
          · exact_mod_cast hsize
    · refine ⟨hchain, fun sp hs => ?_⟩
      obtain ⟨hok, hend, hexist⟩ := hsp sp hs
      exact ⟨hok, le_trans hend (le_max_left _ _), hexist⟩
  · refine ⟨hchain, fun sp hs => ?_⟩
    obtain ⟨hok, hend, hexist⟩ := hsp sp hs
    exact ⟨hok, le_trans hend (le_max_left _ _), hexist⟩

theorem foldl_protStep_inv (cs : Nat) (text : List Char) (ms0 : List (Nat × Nat))
    (l : List (Nat × Nat)) (acc : Int × List PSpan)
    (hl : ∀ m ∈ l, m ∈ ms0 ∧ m.1 ≤ m.2 ∧ m.2 ≤ text.length)
    (h : ProtInv cs text ms0 acc) :
    ProtInv cs text ms0 (l.foldl (protStep cs text) acc) := by
  induction l generalizing acc with
  | nil => exact h
  | cons x xs ih =>
    simp only [List.foldl_cons]
    exact ih _ (fun m hm => hl m (List.mem_cons_of_mem _ hm))
      (protStep_inv cs text ms0 acc x (hl x (List.mem_cons_self x xs)).1
        (hl x (List.mem_cons_self x xs)).2 h)

theorem mem_insertMatch (x a : Nat × Nat) (l : List (Nat × Nat)) :
    a ∈ insertMatch x l ↔ a = x ∨ a ∈ l := by
  induction l with
  | nil => simp [insertMatch]
  | cons y ys ih =>
    rw [insertMatch]
    split
    · simp
    · simp only [List.mem_cons, ih]
      tauto

theorem mem_sortMatches (a : Nat × Nat) (ms : List (Nat × Nat)) :
    a ∈ sortMatches ms ↔ a ∈ ms := by
  induction ms with
  | nil => simp [sortMatches]
  | cons x xs ih =>
    rw [sortMatches, mem_insertMatch]
    simp [ih]

/-- The main structural fact about `_split_protected`: under well-formed
match positions, the output spans are chained (ordered, non-overlapping),
well-formed slices of the text, and each comes from one of the supplied
matches with length below `chunk_size`. -/
theorem splitProtected_inv (cs : Nat) (text : List Char) (ms : List (Nat × Nat))
    (h : WFMatches text ms) :
    SpansChain (splitProtected cs text ms) ∧
    ∀ sp ∈ splitProtected cs text ms, SpanOk text sp ∧
      ∃ m ∈ ms, sp.start = m.1 ∧ sp.content = sl text m.1 m.2 ∧
        (m.2 : Int) - (m.1 : Int) < (cs : Int) := by
  have hinv := foldl_protStep_inv cs text ms (sortMatches ms) ((-1 : Int), [])
    (fun m hm => ⟨(mem_sortMatches m ms).1 hm, h m ((mem_sortMatches m ms).1 hm)⟩)
    ⟨List.chain'_nil, by simp⟩
  exact ⟨hinv.1, fun sp hs => ⟨(hinv.2 sp hs).1, (hinv.2 sp hs).2.2⟩⟩

/-- Merging of overlapping-or-touching matches, following the spec's
words for the protected-span extractor ("return the minimal set of
non-overlapping spans covering every match, merging any spans that
overlap or touch"); used only to compare against the source's
`_split_protected`.  `fuel` bounds the merge steps. -/
def mergeTouchF : Nat → List (Nat × Nat) → List (Nat × Nat)
  | _, [] => []
  | _, [m] => [m]
  | 0, l => l
  | fuel + 1, m1 :: m2 :: rest =>
    if m2.1 ≤ m1.2 then mergeTouchF fuel ((m1.1, max m1.2 m2.2) :: rest)
    else m1 :: mergeTouchF fuel (m2 :: rest)

/-- The protected-span extractor as described by the spec's words:
sort, restrict to matches shorter than `chunk_size`, and merge
overlapping or touching matches into single covering spans. -/
def specMergedCover (cs : Nat) (text : List Char) (ms : List (Nat × Nat)) :
    List PSpan :=
  let kept := (sortMatches ms).filter (fun m => m.2 - m.1 < cs)
  (mergeTouchF kept.length kept).map (fun m => ⟨m.1, sl text m.1 m.2⟩)

/-- The text `"$$[x$$](y)"`.  On it, the default protected patterns of
`TextSplitter` produce exactly the matches `(0, 6)` (the math pattern
`\$\$[\s\S]*?\$\$` matches `"$$[x$$"`) and `(2, 10)` (the link pattern
`\[.*?\]\(.*?\)` matches `"[x$$](y)"`); no other pattern matches. -/
def c3text : List Char := ['$', '$', '[', 'x', '$', '$', ']', '(', 'y', ')']

/-- Counterexample to C3 as stated: on `"$$[x$$](y)"` with
`chunk_size = 200`, `_split_protected` keeps only the span `(0, "$$[x$$")`
and *discards* the overlapping match `(2, 10)` instead of merging it, so
the returned set does not cover every match (positions 6–10 of the link
match are unprotected), and it differs from the spec-described minimal
merged cover. -/
theorem c3_counterexample :
    splitProtected 200 c3text [(0, 6), (2, 10)] =
      [⟨0, ['$', '$', '[', 'x', '$', '$']⟩] ∧
    specMergedCover 200 c3text [(0, 6), (2, 10)] = [⟨0, c3text⟩] ∧
    splitProtected 200 c3text [(0, 6), (2, 10)] ≠
      specMergedCover 200 c3text [(0, 6), (2, 10)] ∧
    ¬ ∃ sp ∈ splitProtected 200 c3text [(0, 6), (2, 10)],
        sp.start ≤ 2 ∧ 10 ≤ sp.start + sp.content.length := by
  decide

/-- C3 (amended): for every text and well-formed match list,
`_split_protected` returns an *ordered, non-overlapping* list of spans,
each of which is one of the original matches (shorter than `chunk_size`)
with its literal substring; a candidate match that starts before the
furthest end seen so far is discarded entirely rather than merged, so
overlapping matches need not be covered and touching matches remain
separate spans. -/
theorem c3_protected_spans (cs : Nat) (text : List Char)
    (ms : List (Nat × Nat)) (h : WFMatches text ms) :
    SpansChain (splitProtected cs text ms) ∧
    ∀ sp ∈ splitProtected cs text ms, SpanOk text sp ∧
      ∃ m ∈ ms, sp.start = m.1 ∧ sp.content = sl text m.1 m.2 ∧
        (m.2 : Int) - (m.1 : Int) < (cs : Int) :=
  splitProtected_inv cs text ms h

/-- Witness for C3 (amended) at a concrete input. -/
theorem c3_protected_spans_witness :
    WFMatches ['a', 'b', 'c', 'd'] [(1, 3), (2, 4)] ∧
    (SpansChain (splitProtected 5 ['a', 'b', 'c', 'd'] [(1, 3), (2, 4)]) ∧
     ∀ sp ∈ splitProtected 5 ['a', 'b', 'c', 'd'] [(1, 3), (2, 4)],
       SpanOk ['a', 'b', 'c', 'd'] sp ∧
       ∃ m ∈ [(1, 3), (2, 4)], sp.start = m.1 ∧
         sp.content = sl ['a', 'b', 'c', 'd'] m.1 m.2 ∧
         (m.2 : Int) - (m.1 : Int) < (5 : Int)) :=
  ⟨by decide, c3_protected_spans 5 ['a', 'b', 'c', 'd'] [(1, 3), (2, 4)] (by decide)⟩

/-- Witness for C8 at a concrete buffer. -/
theorem c8_overlap_bound_witness :
    (7 : Nat) = (([((0 : Int), (3 : Int), ['a', 'b', 'c']),
        ((3 : Int), (7 : Int), ['d', 'e', 'f', 'g'])] : List Chunk).map
        (fun c => List.length c.2.2)).sum ∧
      ((popLoop List.length 10 2 4 0
          [((0 : Int), (3 : Int), ['a', 'b', 'c']),
           ((3 : Int), (7 : Int), ['d', 'e', 'f', 'g'])] 7).1.map
        (fun c => List.length c.2.2)).sum ≤ 2 :=
  ⟨by decide, c8_overlap_bound List.length 10 2 4 0 _ 7 (by decide)⟩

/-! ### C4, C6, C7: counterexamples and amended statements -/

/-- The default separators `["\n", "。", " "]` of `TextSplitter`. -/
def defaultSeps : List (List Char) := [['\n'], ['。'], [' ']]

/-- The default `sentence_end_punctuation` of `TextSplitter`. -/
def defaultMarks : List Char := ['。', '！', '？', '；', '.', '!', '?', ';']

/-- A `TextSplitter` configuration with the default separators, marks,
language (`zh`) and length function (character count). -/
def mkCfg (cs ov : Nat) (pa : Bool) : Config :=
  ⟨cs, ov, defaultSeps, pa, ['z', 'h'], defaultMarks, List.length⟩

/-- Counterexample to C4 as stated: in paragraph-aware mode the text
`"a,\n\nb."` (two short paragraphs; no protected pattern matches) yields
the chunks `(0,2,"a,")` and `(4,6,"b.")` — the first emitted chunk's
content ends on a comma. -/
theorem c4_counterexample :
    (split_text (mkCfg 200 50 true) [] [] ['a', ',', '\n', '\n', 'b', '.']).1 =
      some [((0 : Int), (2 : Int), ['a', ',']), ((4 : Int), (6 : Int), ['b', '.'])] ∧
    ∃ ck ∈ [((0 : Int), (2 : Int), ['a', ',']), ((4 : Int), (6 : Int), ['b', '.'])],
      ck.2.2.getLastD ' ' = ',' := by
  decide

/-- Counterexample to C6 as stated: in legacy mode the whitespace-only
text `" "` (no protected pattern matches) yields the single chunk
`(0, 1, " ")`, not the empty chunk sequence. -/
theorem c6_counterexample :
    (split_text (mkCfg 512 100 false) [] [] [' ']).1 =
      some [((0 : Int), (1 : Int), [' '])] ∧
    (split_text (mkCfg 512 100 false) [] [] [' ']).1 ≠ some [] := by
  decide

theorem pyStrip_eq_nil_of_all_ws (l : List Char) (h : ∀ c ∈ l, pyWs c = true) :
    pyStrip l = [] := by
  have h1 : l.dropWhile pyWs = [] := List.dropWhile_eq_nil_iff.2 h
  simp [pyStrip, h1]

theorem normNl_all_ws (text : List Char) (h : ∀ c ∈ text, pyWs c = true) :
    ∀ c ∈ normNl text, pyWs c = true := by
  induction text using normNl.induct with
  | case1 => simp [normNl]
  | case2 rest ih =>
    intro c hc
    rw [normNl] at hc
    rcases List.mem_cons.1 hc with rfl | hc
    · decide
    · exact ih (fun d hd => h d (by simp [hd])) c hc
  | case3 rest hne ih =>
    intro c hc
    rw [normNl] at hc
    case x_1 => exact hne
    rcases List.mem_cons.1 hc with rfl | hc
    · decide
    · exact ih (fun d hd => h d (by simp [hd])) c hc
  | case4 c0 rest hne1 hne2 ih =>
    intro c hc
    rw [normNl] at hc
    case x_1 => exact hne1
    case x_2 => exact hne2
    rcases List.mem_cons.1 hc with rfl | hc
    · exact h c (by simp)
    · exact ih (fun d hd => h d (by simp [hd])) c hc

theorem splitNN_all_ws (acc : List Char) (pend : Nat) (l : List Char)
    (hacc : ∀ c ∈ acc, pyWs c = true) (hl : ∀ c ∈ l, pyWs c = true) :
    ∀ p ∈ splitNN acc pend l, ∀ c ∈ p, pyWs c = true := by
  induction acc, pend, l using splitNN.induct with
  | case1 acc pend hp2 =>
    intro p hp c hc
    rw [splitNN, if_pos hp2] at hp
    rcases List.mem_cons.1 hp with rfl | hp
    · exact hacc c (List.mem_reverse.1 hc)
    · simp only [List.mem_singleton] at hp
      subst hp
      simp at hc
  | case2 acc pend hp2 =>
    intro p hp c hc
    rw [splitNN, if_neg hp2] at hp
    simp only [List.mem_singleton] at hp
    subst hp
    rcases List.mem_append.1 hc with hc | hc
    · exact hacc c (List.mem_reverse.1 hc)
    · have := List.eq_of_mem_replicate hc
      subst this
      decide
  | case3 acc pend rest ih =>
    intro p hp
    rw [splitNN] at hp
    exact ih hacc (fun d hd => hl d (by simp [hd])) p hp
  | case4 acc pend c0 rest hne hp2 ih =>
    intro p hp c hc
    rw [splitNN] at hp
    case x_1 => exact hne
    rw [if_pos hp2] at hp
    rcases List.mem_cons.1 hp with rfl | hp
    · exact hacc c (List.mem_reverse.1 hc)
    · exact ih (fun d hd => by
        simp only [List.mem_singleton] at hd
        exact hd ▸ hl c0 (by simp)) (fun d hd => hl d (by simp [hd])) p hp c hc
  | case5 acc pend c0 rest hne hp2 ih =>
    intro p hp c hc
    rw [splitNN] at hp
    case x_1 => exact hne
    rw [if_neg hp2] at hp
    refine ih (fun d hd => ?_) (fun d hd => hl d (by simp [hd])) p hp c hc
    rcases List.mem_cons.1 hd with rfl | hd
    · exact hl d (by simp)
    · rcases List.mem_append.1 hd with hd | hd
      · have := List.eq_of_mem_replicate (List.mem_reverse.1 hd)
        subst this
        decide
      · exact hacc d hd

theorem paraLoop_all_ws (t : List Char) (parts : List (List Char)) (pos : Nat)
    (h : ∀ p ∈ parts, ∀ c ∈ p, pyWs c = true) :
    paraLoop t parts pos = [] := by
  induction parts generalizing pos with
  | nil => rfl
  | cons part rest ih =>
    rw [paraLoop]
    rw [if_pos (pyStrip_eq_nil_of_all_ws part (h part (by simp)))]
    exact ih _ (fun p hp => h p (by simp [hp]))

/-- Whitespace-only text yields no paragraphs. -/
theorem split_paragraphs_all_ws (text : List Char)
    (h : ∀ c ∈ text, pyWs c = true) : split_paragraphs text = [] := by
  rw [split_paragraphs]
  split
  · rfl
  · exact paraLoop_all_ws _ _ _
      (splitNN_all_ws [] 0 (normNl text) (by simp) (normNl_all_ws text h))

/-- C6 (amended): `split_text` returns the empty chunk sequence for empty
text in both modes, and for whitespace-only text in paragraph-aware mode;
in legacy mode a whitespace-only *non-empty* text instead yields a
non-empty chunk sequence containing the whitespace (see the
counterexample). -/
theorem c6_noop_input :
    (∀ (cfg : Config) (ms : List (Nat × Nat)) (hook : List Char),
      (split_text cfg ms hook ([] : List Char)).1 = some []) ∧
    (∀ (cfg : Config) (ms : List (Nat × Nat)) (hook : List Char) (text : List Char),
      cfg.paragraph_aware = true → (∀ c ∈ text, pyWs c = true) →
      (split_text cfg ms hook text).1 = some []) := by
  constructor
  · intro cfg ms hook
    simp [split_text]
  · intro cfg ms hook text hpa hws
    by_cases h0 : text = []
    · simp [split_text, h0]
    · simp only [split_text, if_neg h0, hpa, if_true]
      simp [splitTextParagraphAware, split_paragraphs_all_ws text hws]

/-- Witness for C6 (amended) at concrete inputs. -/
theorem c6_noop_input_witness :
    (split_text (mkCfg 512 100 false) [] [] ([] : List Char)).1 = some [] ∧
    ((mkCfg 512 100 true).paragraph_aware = true ∧ (∀ c ∈ [' ', '\n'], pyWs c = true) ∧
      (split_text (mkCfg 512 100 true) [] [] [' ', '\n']).1 = some []) :=
  ⟨c6_noop_input.1 (mkCfg 512 100 false) [] [],
   by decide,
   by decide,
   c6_noop_input.2 (mkCfg 512 100 true) [] [] [' ', '\n'] (by decide) (by decide)⟩

/-! ### Strip lemmas (for C10 and C4) -/

theorem dropWhile_head_not {α : Type} (p : α → Bool) (l : List α) (c : α)
    (r : List α) (h : l.dropWhile p = c :: r) : p c = false := by
  induction l with
  | nil => simp at h
  | cons a t ih =>
    rw [List.dropWhile_cons] at h
    split at h
    · exact ih h
    · rename_i ha
      injection h with h1 _
      subst h1
      simpa using ha

theorem dropWhile_eq_self_of_head {α : Type} (p : α → Bool) (l : List α)
    (h : ∀ c, l.head? = some c → p c = false) : l.dropWhile p = l := by
  cases l with
  | nil => rfl
  | cons c r =>
    rw [List.dropWhile_cons, if_neg]
    simp [h c rfl]

theorem getLast?_dropWhile {α : Type} (p : α → Bool) (l : List α)
    (h : l.dropWhile p ≠ []) : (l.dropWhile p).getLast? = l.getLast? := by
  induction l with
  | nil => simp at h
  | cons c r ih =>
    rw [List.dropWhile_cons] at h ⊢
    split
    · rename_i hc
      rw [if_pos hc] at h
      rw [ih h]
      have hr : r ≠ [] := by
        intro h0
        subst h0
        simp [List.dropWhile] at h
      cases r with
      | nil => exact absurd rfl hr
      | cons a b => rw [List.getLast?_cons_cons]
    · rfl

theorem pyStrip_getLast? (l : List Char) (c : Char)
    (h : (pyStrip l).getLast? = some c) : pyWs c = false := by
  unfold pyStrip at h
  rw [List.getLast?_reverse] at h
  cases hx : ((l.dropWhile pyWs).reverse.dropWhile pyWs) with
  | nil => rw [hx] at h; simp at h
  | cons a t =>
    rw [hx] at h
    simp only [List.head?_cons, Option.some.injEq] at h
    subst h
    exact dropWhile_head_not pyWs _ _ _ hx

theorem pyStrip_head? (l : List Char) (c : Char)
    (h : (pyStrip l).head? = some c) : pyWs c = false := by
  unfold pyStrip at h
  rw [List.head?_reverse] at h
  by_cases hne : (l.dropWhile pyWs).reverse.dropWhile pyWs = []
  · rw [hne] at h; simp at h
  · rw [getLast?_dropWhile pyWs _ hne, List.getLast?_reverse] at h
    cases hx : l.dropWhile pyWs with
    | nil => rw [hx] at h; simp at h
    | cons a t =>
      rw [hx] at h
      simp only [List.head?_cons, Option.some.injEq] at h
      subst h
      exact dropWhile_head_not pyWs _ _ _ hx

theorem pyStrip_eq_self (l : List Char)
    (h1 : ∀ c, l.head? = some c → pyWs c = false)
    (h2 : ∀ c, l.getLast? = some c → pyWs c = false) : pyStrip l = l := by
  unfold pyStrip
  rw [dropWhile_eq_self_of_head pyWs l h1]
  rw [dropWhile_eq_self_of_head pyWs l.reverse
    (fun c hc => h2 c (by rwa [List.head?_reverse] at hc))]
  exact List.reverse_reverse l

theorem pyStrip_idem (l : List Char) : pyStrip (pyStrip l) = pyStrip l :=
  pyStrip_eq_self (pyStrip l) (pyStrip_head? l) (pyStrip_getLast? l)

theorem pyStrip_ne_nil (l : List Char) (c : Char) (h : l.head? = some c)
    (hc : pyWs c = false) : pyStrip l ≠ [] := by
  unfold pyStrip
  intro h0
  rw [List.reverse_eq_nil_iff, List.dropWhile_eq_nil_iff] at h0
  have hcl : c ∈ (l.dropWhile pyWs).reverse := by
    rw [List.mem_reverse, dropWhile_eq_self_of_head pyWs l
      (fun d hd => by rw [h] at hd; injection hd with hd; subst hd; exact hc)]
    exact List.mem_of_mem_head? h
  have := h0 c hcl
  rw [hc] at this
  exact Bool.false_ne_true this

/-- A non-empty concatenation of non-empty stripped pieces is stripped
and non-empty. -/
theorem flatten_stripped (pieces : List (List Char)) (hne : pieces ≠ [])
    (h : ∀ p ∈ pieces, pyStrip p = p ∧ p ≠ []) :
    pyStrip pieces.flatten = pieces.flatten ∧ pieces.flatten ≠ [] := by
  induction pieces with
  | nil => exact absurd rfl hne
  | cons p rest ih =>
    have hp := h p (by simp)
    by_cases hrest : rest = []
    · subst hrest
      simpa using hp
    · have hr := ih hrest (fun q hq => h q (by simp [hq]))
      constructor
      · rw [List.flatten_cons]
        refine pyStrip_eq_self _ ?_ ?_
        · intro c hc
          rw [List.head?_append_of_ne_nil _ hp.2] at hc
          have := hp.1
          exact pyStrip_head? p c (by rwa [this])
        · intro c hc
          rw [List.getLast?_append_of_ne_nil _ hr.2] at hc
          exact pyStrip_getLast? rest.flatten c (by rwa [hr.1])
      · rw [List.flatten_cons]
        intro h0
        exact hp.2 (List.append_eq_nil.1 h0).1

/-! ### C10: chunks from long paragraphs are joins of stripped pieces -/

theorem downSearch_some_ge_one (t : List Char) (i stop j : Nat)
    (h : downSearch t i stop = some j) : 1 ≤ j := by
  induction i generalizing j with
  | zero => simp [downSearch] at h
  | succ i ih =>
    rw [downSearch] at h
    split at h
    · simp at h
    · split at h
      · injection h with h; omega
      · exact ih j h

theorem upSearch_some_ge (t : List Char) (fuel i j : Nat)
    (h : upSearch t fuel i = some j) : i ≤ j := by
  induction fuel generalizing i with
  | zero => simp [upSearch] at h
  | succ fuel ih =>
    rw [upSearch] at h
    split at h
    · injection h with h; omega
    · exact Nat.le_of_succ_le (ih (i + 1) h)

theorem sans_ge_one (r : List Char) (cs : Nat) (hcs : 1 ≤ cs)
    (hlen : cs < r.length) : 1 ≤ split_at_nearest_space r cs 100 := by
  rw [split_at_nearest_space, if_neg (by omega)]
  cases hd : downSearch r cs (cs - 100) with
  | some j => exact downSearch_some_ge_one r cs _ j hd
  | none =>
    cases hu : upSearch r (min r.length (cs + 100) - cs) cs with
    | some j => exact le_trans hcs (upSearch_some_ge r _ cs j hu)
    | none => exact hcs

theorem hardSplitF_members (cs fuel : Nat) (hcs : 1 ≤ cs) (r : List Char)
    (hr : pyStrip r = r) :
    ∀ s ∈ hardSplitF List.length cs fuel r, pyStrip s = s ∧ s ≠ [] := by
  induction fuel generalizing r with
  | zero =>
    intro s hs
    rw [hardSplitF] at hs
    split at hs
    · rename_i hlen
      simp only [List.mem_singleton] at hs
      subst hs
      exact ⟨hr, by intro h0; subst h0; simp at hlen⟩
    · split at hs
      · simp at hs
      · rename_i _ hne
        simp only [List.mem_singleton] at hs
        subst hs
        exact ⟨hr, hne⟩
  | succ fuel ih =>
    intro s hs
    rw [hardSplitF] at hs
    split at hs
    · rename_i hlen
      rcases List.mem_cons.1 hs with rfl | hs
      · refine ⟨pyStrip_idem _, ?_⟩
        have hrne : r ≠ [] := by intro h0; subst h0; simp at hlen
        obtain ⟨c, r', rfl⟩ := List.exists_cons_of_ne_nil hrne
        have hc : pyWs c = false := pyStrip_head? _ c (by rw [hr]; rfl)
        have hsp := sans_ge_one (c :: r') cs hcs (by simpa using hlen)
        obtain ⟨k, hk⟩ := Nat.exists_eq_add_of_le hsp
        rw [hk]
        exact pyStrip_ne_nil _ c (by simp [List.take_cons]) hc
      · exact ih (pyStrip (r.drop (split_at_nearest_space r cs 100)))
          (pyStrip_idem _) s hs
    · split at hs
      · simp at hs
      · rename_i _ hne
        simp only [List.mem_singleton] at hs
        subst hs
        exact ⟨hr, hne⟩

/-- Every sentence returned by `split_chinese_sentences` is non-empty and
equal to its own strip. -/
theorem scs_members (text : List Char) (marks : Option (List Char)) (maxLen : Nat) :
    ∀ s ∈ split_chinese_sentences text marks maxLen, pyStrip s = s ∧ s ≠ [] := by
  intro s hs
  simp only [split_chinese_sentences] at hs
  split at hs
  · simp at hs
  · rw [List.mem_flatMap] at hs
    obtain ⟨sent, hsent, hs⟩ := hs
    have hsentP : pyStrip sent = sent ∧ sent ≠ [] := by
      rw [List.mem_filter] at hsent
      obtain ⟨hmem, hne⟩ := hsent
      rw [List.mem_map] at hmem
      obtain ⟨x, _, rfl⟩ := hmem
      exact ⟨pyStrip_idem x, by simpa using hne⟩
    split at hs
    · simp only [List.mem_singleton] at hs
      subst hs
      exact hsentP
    · split at hs
      · rw [List.mem_filter] at hs
        obtain ⟨hmem, hne⟩ := hs
        rw [List.mem_map] at hmem
        obtain ⟨x, _, rfl⟩ := hmem
        exact ⟨pyStrip_idem x, by simpa using hne⟩
      · split at hs
        · rw [List.mem_filter] at hs
          obtain ⟨hmem, hne⟩ := hs
          rw [List.mem_map] at hmem
          obtain ⟨x, _, rfl⟩ := hmem
          exact ⟨pyStrip_idem x, by simpa using hne⟩
        · simp only [List.mem_singleton] at hs
          subst hs
          exact hsentP

/-- Every sentence returned by `split_english_sentences` is non-empty and
equal to its own strip. -/
theorem ses_members (text : List Char) (marks : Option (List (List Char)))
    (maxLen : Nat) :
    ∀ s ∈ split_english_sentences text marks maxLen, pyStrip s = s ∧ s ≠ [] := by
  intro s hs
  simp only [split_english_sentences] at hs
  split at hs
  · simp at hs
  · rw [List.mem_flatMap] at hs
    obtain ⟨sent, hsent, hs⟩ := hs
    have hsentP : pyStrip sent = sent ∧ sent ≠ [] := by
      rw [List.mem_filter] at hsent
      obtain ⟨hmem, hne⟩ := hsent
      rw [List.mem_map] at hmem
      obtain ⟨x, _, rfl⟩ := hmem
      exact ⟨pyStrip_idem x, by simpa using hne⟩
    split at hs
    · simp only [List.mem_singleton] at hs
      subst hs
      exact hsentP
    · split at hs
      · rw [List.mem_filterMap] at hs
        obtain ⟨piece, _, hok0⟩ := hs
        have hok : (if pyStrip piece = [] then (none : Option (List Char))
            else some (if (pyStrip piece).getLastD ' ' = ';' then pyStrip piece
              else pyStrip piece ++ [';'])) = some s := hok0
        clear hok0
        split at hok
        · exact absurd hok (by simp)
        · rename_i hne
          injection hok with hok
          subst hok
          split
          · exact ⟨pyStrip_idem piece, hne⟩
          · obtain ⟨c, t, hct⟩ := List.exists_cons_of_ne_nil hne
            have hc : pyWs c = false :=
              pyStrip_head? piece c (by rw [hct]; rfl)
            refine ⟨pyStrip_eq_self _ ?_ ?_, by simp⟩
            · intro d hd
              rw [List.head?_append_of_ne_nil _ hne, hct] at hd
              injection hd with hd
              subst hd
              exact hc
            · intro d hd
              rw [List.getLast?_append_of_ne_nil _ (by simp : [';'] ≠ [])] at hd
              simp only [List.getLast?_singleton, Option.some.injEq] at hd
              subst hd
              decide
      · simp only [List.mem_singleton] at hs
        subst hs
        exact hsentP

theorem keepOverlapGo_members (lenFn : List Char → Nat) (ov : Nat)
    (l kept : List (List Char)) (n : Nat) :
    ∀ x ∈ (keepOverlapGo lenFn ov l kept n).1, x ∈ l ∨ x ∈ kept := by
  induction l generalizing kept n with
  | nil =>
    intro x hx
    exact Or.inr hx
  | cons s rest ih =>
    intro x hx
    rw [keepOverlapGo] at hx
    split at hx
    · exact Or.inr hx
    · rcases ih (s :: kept) (n + lenFn s) x hx with h | h
      · exact Or.inl (by simp [h])
      · rcases List.mem_cons.1 h with rfl | h
        · exact Or.inl (by simp)
        · exact Or.inr h

/-- Every chunk text produced by the paragraph-aware sentence merge is a
non-empty concatenation of processed sentences. -/
theorem mergePara_members (lenFn : List Char → Nat) (cs ov : Nat)
    (P : List Char → Prop) (sents buf : List (List Char)) (curLen : Nat)
    (chunks0 : List (List Char)) (hs : ∀ s ∈ sents, P s) (hb : ∀ s ∈ buf, P s)
    (hc : ∀ c ∈ chunks0, ∃ pieces : List (List Char),
      pieces ≠ [] ∧ (∀ p ∈ pieces, P p) ∧ c = pieces.flatten) :
    ∀ c ∈ mergePara lenFn cs ov sents buf curLen chunks0,
      ∃ pieces : List (List Char),
        pieces ≠ [] ∧ (∀ p ∈ pieces, P p) ∧ c = pieces.flatten := by
  induction sents generalizing buf curLen chunks0 with
  | nil =>
    intro c hcm
    rw [mergePara] at hcm
    rcases List.mem_append.1 hcm with h | h
    · exact hc c h
    · split at h
      · simp at h
      · rename_i hbne
        simp only [List.mem_singleton] at h
        subst h
        exact ⟨buf, hbne, hb, rfl⟩
  | cons s rest ih =>
    intro c hcm
    rw [mergePara] at hcm
    split at hcm
    · rename_i hcond
      have hc' : ∀ x ∈ chunks0 ++ [buf.flatten], ∃ pieces : List (List Char),
          pieces ≠ [] ∧ (∀ p ∈ pieces, P p) ∧ x = pieces.flatten := by
        intro x hx
        rcases List.mem_append.1 hx with h | h
        · exact hc x h
        · simp only [List.mem_singleton] at h
          subst h
          exact ⟨buf, hcond.2, hb, rfl⟩
      split at hcm
      · refine ih _ _ _ (fun x hx => hs x (by simp [hx])) ?_ hc' c hcm
        intro x hx
        rcases List.mem_append.1 hx with h | h
        · rcases keepOverlapGo_members lenFn ov buf.reverse [] 0 x h with h | h
          · exact hb x (List.mem_reverse.1 h)
          · simp at h
        · simp only [List.mem_singleton] at h
          subst h
          exact hs x (by simp)
      · refine ih _ _ _ (fun x hx => hs x (by simp [hx])) ?_ hc' c hcm
        intro x hx
        simp only [List.mem_singleton] at hx
        subst hx
        exact hs x (by simp)
    · refine ih _ _ _ (fun x hx => hs x (by simp [hx])) ?_ hc c hcm
      intro x hx
      rcases List.mem_append.1 hx with h | h
      · exact hb x h
      · simp only [List.mem_singleton] at h
        subst h
        exact hs x (by simp)

theorem toPositionTuples_content (ov : Nat) (pos : Int)
    (chunks : List (List Char)) :
    ∀ ck ∈ toPositionTuples ov pos chunks, ck.2.2 ∈ chunks := by
  induction chunks generalizing pos with
  | nil => simp [toPositionTuples]
  | cons c rest ih =>
    intro ck hck
    rw [toPositionTuples] at hck
    rcases List.mem_cons.1 hck with rfl | hck
    · simp
    · exact List.mem_cons_of_mem _ (ih _ ck hck)

/-- C10: in paragraph-aware mode, every chunk produced from a long
paragraph is a concatenation of whitespace-stripped processed sentences
and hard-split fragments; its content is non-empty, has no leading or
trailing whitespace, and contains no whitespace that separated the
sentences (it equals the flat concatenation of the stripped pieces). -/
theorem c10_stripped_chunks (cs ov : Nat) (hcs : 1 ≤ cs)
    (lang marks para : List Char) (paraStart : Int) :
    ∀ ck ∈ splitLongParagraph List.length cs ov lang marks para paraStart,
      ∃ pieces : List (List Char), pieces ≠ [] ∧
        (∀ p ∈ pieces, p ∈ processedSentences List.length cs lang marks para ∧
          pyStrip p = p ∧ p ≠ []) ∧
        ck.2.2 = pieces.flatten ∧ pyStrip ck.2.2 = ck.2.2 ∧ ck.2.2 ≠ [] := by
  have hproc : ∀ p ∈ processedSentences List.length cs lang marks para,
      pyStrip p = p ∧ p ≠ [] := by
    intro p hp
    rw [processedSentences, List.mem_flatMap] at hp
    obtain ⟨sent, hsent, hp⟩ := hp
    have hsentS : pyStrip sent = sent ∧ sent ≠ [] := by
      rw [paraSentences] at hsent
      split at hsent
      · exact scs_members _ _ _ sent hsent
      · exact ses_members _ _ _ sent hsent
    rw [hardSplit] at hp
    exact hardSplitF_members cs sent.length hcs sent hsentS.1 p hp
  intro ck hck
  rw [splitLongParagraph] at hck
  have hcontent := toPositionTuples_content ov paraStart _ ck hck
  have hmp := mergePara_members List.length cs ov
    (fun p => p ∈ processedSentences List.length cs lang marks para ∧
      pyStrip p = p ∧ p ≠ [])
    (processedSentences List.length cs lang marks para) [] 0 []
    (fun s hsx => ⟨hsx, hproc s hsx⟩) (by simp) (by simp) ck.2.2 hcontent
  obtain ⟨pieces, hne, hP, heq⟩ := hmp
  have hflat := flatten_stripped pieces hne (fun p hp => (hP p hp).2)
  exact ⟨pieces, hne, hP, heq, heq ▸ hflat.1, heq ▸ hflat.2⟩

/-- Witness for C10 at a concrete long paragraph. -/
theorem c10_stripped_chunks_witness :
    (1 : Nat) ≤ 2 ∧
    ((0 : Int), (2 : Int), ['a', '。']) ∈
      splitLongParagraph List.length 2 0 ['z', 'h'] defaultMarks
        ['a', '。', 'b', '。'] 0 ∧
    (∃ pieces : List (List Char), pieces ≠ [] ∧
      (∀ p ∈ pieces,
        p ∈ processedSentences List.length 2 ['z', 'h'] defaultMarks
          ['a', '。', 'b', '。'] ∧ pyStrip p = p ∧ p ≠ []) ∧
      ((((0 : Int), (2 : Int), ['a', '。']) : Chunk)).2.2 = pieces.flatten ∧
      pyStrip (((((0 : Int), (2 : Int), ['a', '。'])) : Chunk)).2.2 =
        (((((0 : Int), (2 : Int), ['a', '。'])) : Chunk)).2.2 ∧
      (((((0 : Int), (2 : Int), ['a', '。'])) : Chunk)).2.2 ≠ []) :=
  ⟨by decide, by decide,
   c10_stripped_chunks 2 0 (by decide) ['z', 'h'] defaultMarks
     ['a', '。', 'b', '。'] 0 ((0 : Int), (2 : Int), ['a', '。']) (by decide)⟩

/-! ### C4: sentence integrity in paragraph-aware mode -/

/-- The sentence (or chunk) text ends with one of the configured
sentence-end marks. -/
def EndsMark (marks : List Char) (s : List Char) : Prop :=
  ∃ m ∈ marks, s.getLast? = some m

instance (marks s : List Char) : Decidable (EndsMark marks s) :=
  inferInstanceAs (Decidable (∃ m ∈ marks, _))

/-- Every match of the primary pattern except possibly the final one ends
with a sentence-end mark (greedy non-mark runs take everything up to the
next mark, so a match misses its optional mark only at end of input). -/
theorem cnScan_dropLast_ends (marks : List Char) (l acc : List Char) :
    ∀ p ∈ (cnScan marks acc l).dropLast, EndsMark marks p := by
  induction l generalizing acc with
  | nil =>
    intro p hp
    rw [cnScan] at hp
    split at hp <;> simp at hp
  | cons c rest ih =>
    intro p hp
    rw [cnScan] at hp
    split at hp
    · rename_i hc
      split at hp
      · exact ih [] p hp
      · cases hx : cnScan marks [] rest with
        | nil =>
          rw [hx] at hp
          simp at hp
        | cons q qs =>
          rw [hx, List.dropLast_cons₂] at hp
          rcases List.mem_cons.1 hp with rfl | hp
          · exact ⟨c, hc, by simp⟩
          · exact ih [] p (by rw [hx]; exact hp)
    · exact ih (c :: acc) p hp

/-- Stripping preserves a non-whitespace final character. -/
theorem pyStrip_getLast_preserved (l : List Char) (m : Char)
    (h : l.getLast? = some m) (hm : pyWs m = false) :
    pyStrip l = l.dropWhile pyWs ∧ (pyStrip l).getLast? = some m ∧ pyStrip l ≠ [] := by
  have hA : l.dropWhile pyWs ≠ [] := by
    intro h0
    rw [List.dropWhile_eq_nil_iff] at h0
    have hmem : m ∈ l := List.mem_of_mem_getLast? h
    rw [h0 m hmem] at hm
    simp at hm
  have hAlast : (l.dropWhile pyWs).getLast? = some m := by
    rw [getLast?_dropWhile pyWs l hA, h]
  have hhead : ∀ c, (l.dropWhile pyWs).reverse.head? = some c → pyWs c = false := by
    intro c hc
    rw [List.head?_reverse, hAlast] at hc
    injection hc with hc
    subst hc
    exact hm
  have heq : pyStrip l = l.dropWhile pyWs := by
    unfold pyStrip
    rw [dropWhile_eq_self_of_head pyWs _ hhead, List.reverse_reverse]
  exact ⟨heq, heq ▸ hAlast, heq ▸ hA⟩

theorem dropLast_of_length_le_one {α : Type} (l : List α) (h : l.length ≤ 1) :
    l.dropLast = [] := by
  cases l with
  | nil => rfl
  | cons a t =>
    cases t with
    | nil => rfl
    | cons b u => simp at h

/-- Strip-and-filter preserves the all-but-last-end-with-mark property,
provided no mark is whitespace. -/
theorem stripFilter_dropLast_ends (marks : List Char)
    (hws : ∀ m ∈ marks, pyWs m = false) (pieces : List (List Char))
    (h : ∀ p ∈ pieces.dropLast, EndsMark marks p) :
    ∀ s ∈ ((pieces.map pyStrip).filter (· ≠ [])).dropLast, EndsMark marks s := by
  induction pieces with
  | nil => simp
  | cons p rest ih =>
    cases rest with
    | nil =>
      intro s hs
      have hlen : ((([p] : List (List Char)).map pyStrip).filter (· ≠ [])).length ≤ 1 := by
        calc ((([p] : List (List Char)).map pyStrip).filter (· ≠ [])).length
            ≤ (([p] : List (List Char)).map pyStrip).length := List.length_filter_le _ _
          _ = 1 := by simp
      rw [dropLast_of_length_le_one _ hlen] at hs
      simp at hs
    | cons r0 rs =>
      have hp : EndsMark marks p := h p (by rw [List.dropLast_cons₂]; simp)
      obtain ⟨m, hmm, hlast⟩ := hp
      obtain ⟨heq, hplast, hpne⟩ :=
        pyStrip_getLast_preserved p m hlast (hws m hmm)
      intro s hs
      have hsplit : (((p :: r0 :: rs).map pyStrip).filter (· ≠ [])) =
          pyStrip p :: (((r0 :: rs).map pyStrip).filter (· ≠ [])) := by
        rw [show List.map pyStrip (p :: r0 :: rs) =
            pyStrip p :: List.map pyStrip (r0 :: rs) from rfl]
        rw [List.filter_cons, if_pos (by simpa using hpne)]
      rw [hsplit] at hs
      cases hx : ((r0 :: rs).map pyStrip).filter (· ≠ []) with
      | nil =>
        rw [hx] at hs
        simp at hs
      | cons q qs =>
        rw [hx, List.dropLast_cons₂] at hs
        rcases List.mem_cons.1 hs with rfl | hs
        · exact ⟨m, hmm, hplast⟩
        · refine ih (fun x hx2 => h x ?_) s (by rw [hx]; exact hs)
          rw [List.dropLast_cons₂]
          exact List.mem_cons_of_mem _ hx2

/-- When every element satisfies the bound, the over-length fallback of
the sentence splitters is the identity. -/
theorem flatMap_id_of_le {α : Type} (l : List α) (f : α → List α) (P : α → Prop)
    (hP : ∀ x ∈ l, P x) (hf : ∀ x ∈ l, P x → f x = [x]) : l.flatMap f = l := by
  induction l with
  | nil => rfl
  | cons x xs ih =>
    rw [List.flatMap_cons, hf x (by simp) (hP x (by simp)),
      ih (fun y hy => hP y (by simp [hy])) (fun y hy => hf y (by simp [hy]))]
    rfl

/-- Under the fitting condition, `split_chinese_sentences` returns exactly
the stripped, filtered primary matches. -/
theorem scs_eq_primary (text : List Char) (marks : List Char) (maxLen : Nat)
    (hne : ¬(text = [] ∨ pyStrip text = []))
    (hlen : ∀ s ∈ ((cnScan marks [] text).map pyStrip).filter (· ≠ []),
      s.length ≤ maxLen) :
    split_chinese_sentences text (some marks) maxLen =
      ((cnScan marks [] text).map pyStrip).filter (· ≠ []) := by
  simp only [split_chinese_sentences, if_neg hne]
  exact flatMap_id_of_le _ _ (fun s => s.length ≤ maxLen) hlen
    (fun s _ hs => by rw [if_pos hs])

/-- When every sentence fits in `chunk_size`, the hard-split pass is the
identity. -/
theorem processed_eq_of_fit (cs : Nat) (lang marks para : List Char)
    (hfit : ∀ s ∈ paraSentences cs lang marks para, s.length ≤ cs)
    (hne : ∀ s ∈ paraSentences cs lang marks para, s ≠ []) :
    processedSentences List.length cs lang marks para =
      paraSentences cs lang marks para := by
  rw [processedSentences]
  refine flatMap_id_of_le _ _ (fun s => s.length ≤ cs ∧ s ≠ [])
    (fun s hs => ⟨hfit s hs, hne s hs⟩) (fun s _ hP => ?_)
  rw [hardSplit]
  cases hf : s.length with
  | zero => exact absurd (List.length_eq_zero.1 hf) hP.2
  | succ n =>
    rw [hardSplitF]
    rw [if_neg (by omega), if_neg hP.2]

/-- A non-empty concatenation of non-empty pieces whose final piece ends
with `m` also ends with `m`. -/
theorem flatten_getLast? (pieces : List (List Char)) (m : Char)
    (hne : ∀ p ∈ pieces, p ≠ [])
    (hlast : ∀ q, pieces.getLast? = some q → q.getLast? = some m)
    (hpne : pieces ≠ []) : pieces.flatten.getLast? = some m := by
  induction pieces with
  | nil => exact absurd rfl hpne
  | cons p rest ih =>
    cases rest with
    | nil =>
      simp only [List.flatten_cons, List.flatten_nil, List.append_nil]
      exact hlast p rfl
    | cons r0 rs =>
      rw [List.flatten_cons]
      rw [List.getLast?_append_of_ne_nil]
      · exact ih (fun q hq => hne q (by simp [hq]))
          (fun q hq => hlast q (by rw [List.getLast?_cons_cons] at *; exact hq))
          (by simp)
      · intro h0
        rw [List.flatten_cons] at h0
        exact hne r0 (by simp) (List.append_eq_nil.1 h0).1

/-- In the paragraph-aware sentence merge, every chunk except possibly
the final one ends with a sentence-end mark, provided every non-final
sentence does. -/
theorem mergePara_dropLast_ends (lenFn : List Char → Nat) (cs ov : Nat)
    (marks : List Char) (sents buf : List (List Char)) (curLen : Nat)
    (chunks0 : List (List Char))
    (hSne : ∀ s ∈ sents, s ≠ []) (hBne : ∀ s ∈ buf, s ≠ [])
    (hSends : ∀ s ∈ sents.dropLast, EndsMark marks s)
    (hBlast : sents ≠ [] → ∀ q, buf.getLast? = some q → EndsMark marks q)
    (hC : ∀ c ∈ chunks0, EndsMark marks c) :
    ∀ c ∈ (mergePara lenFn cs ov sents buf curLen chunks0).dropLast,
      EndsMark marks c := by
  induction sents generalizing buf curLen chunks0 with
  | nil =>
    intro c hcm
    rw [mergePara] at hcm
    split at hcm
    · rw [List.append_nil] at hcm
      exact hC c (List.mem_of_mem_dropLast hcm)
    · rw [List.dropLast_concat] at hcm
      exact hC c hcm
  | cons s rest ih =>
    intro c hcm
    rw [mergePara] at hcm
    split at hcm
    · rename_i hcond
      have hbe : buf ≠ [] := hcond.2
      have hflat : EndsMark marks buf.flatten := by
        obtain ⟨q, hq⟩ := Option.ne_none_iff_exists'.1
          (mt List.getLast?_eq_none_iff.1 hbe)
        obtain ⟨m, hm, hqm⟩ := hBlast (by simp) q hq
        refine ⟨m, hm, flatten_getLast? buf m hBne ?_ hbe⟩
        intro q' hq'
        rw [hq] at hq'
        injection hq' with hq'
        subst hq'
        exact hqm
      have hC' : ∀ x ∈ chunks0 ++ [buf.flatten], EndsMark marks x := by
        intro x hx
        rcases List.mem_append.1 hx with h | h
        · exact hC x h
        · simp only [List.mem_singleton] at h
          subst h
          exact hflat
      have hSends' : ∀ x ∈ rest.dropLast, EndsMark marks x := by
        intro x hx
        cases rest with
        | nil => simp at hx
        | cons r0 rs =>
          exact hSends x (by rw [List.dropLast_cons₂]; exact List.mem_cons_of_mem _ hx)
      have hlastS : rest ≠ [] → EndsMark marks s := by
        intro hrne
        cases rest with
        | nil => exact absurd rfl hrne
        | cons r0 rs => exact hSends s (by rw [List.dropLast_cons₂]; simp)
      split at hcm
      · refine ih _ _ _ (fun x hx => hSne x (by simp [hx])) ?_ hSends' ?_ hC' c hcm
        · intro x hx
          rcases List.mem_append.1 hx with h | h
          · rcases keepOverlapGo_members lenFn ov buf.reverse [] 0 x h with h | h
            · exact hBne x (List.mem_reverse.1 h)
            · simp at h
          · simp only [List.mem_singleton] at h
            subst h
            exact hSne x (by simp)
        · intro hrne q hq
          rw [List.getLast?_concat] at hq
          injection hq with hq
          subst hq
          exact hlastS hrne
      · refine ih _ _ _ (fun x hx => hSne x (by simp [hx])) ?_ hSends' ?_ hC' c hcm
        · intro x hx
          simp only [List.mem_singleton] at hx
          subst hx
          exact hSne x (by simp)
        · intro hrne q hq
          simp only [List.getLast?_singleton, Option.some.injEq] at hq
          subst hq
          exact hlastS hrne
    · refine ih _ _ _ (fun x hx => hSne x (by simp [hx])) ?_ ?_ ?_ hC c hcm
      · intro x hx
        rcases List.mem_append.1 hx with h | h
        · exact hBne x h
        · simp only [List.mem_singleton] at h
          subst h
          exact hSne x (by simp)
      · intro x hx
        cases rest with
        | nil => simp at hx
        | cons r0 rs =>
          exact hSends x (by rw [List.dropLast_cons₂]; exact List.mem_cons_of_mem _ hx)
      · intro hrne q hq
        rw [List.getLast?_concat] at hq
        injection hq with hq
        subst hq
        cases rest with
        | nil => exact absurd rfl hrne
        | cons r0 rs => exact hSends s (by rw [List.dropLast_cons₂]; simp)

theorem toPositionTuples_map (ov : Nat) (pos : Int) (l : List (List Char)) :
    (toPositionTuples ov pos l).map (·.2.2) = l := by
  induction l generalizing pos with
  | nil => rfl
  | cons c rest ih =>
    rw [toPositionTuples]
    simp only [List.map_cons]
    rw [ih]

/-- C4 (amended): in paragraph-aware mode, when every (stripped, filtered)
primary sentence of a long Chinese-mode paragraph fits in `chunk_size`,
every non-final chunk produced for that paragraph ends on one of the
configured sentence-end marks.  Whole-paragraph chunks and final chunks
may end on any character, including a comma (see the counterexample), as
may chunks affected by the over-length fallbacks or hard splitting. -/
theorem c4_sentence_integrity (cs ov : Nat) (marks para : List Char)
    (paraStart : Int) (hws : ∀ m ∈ marks, pyWs m = false)
    (hfit : ∀ s ∈ ((cnScan marks [] para).map pyStrip).filter (· ≠ []),
      s.length ≤ cs) :
    ∀ ck ∈ (splitLongParagraph List.length cs ov ['z', 'h'] marks para
        paraStart).dropLast,
      EndsMark marks ck.2.2 := by
  intro ck hck
  have hpara : paraSentences cs ['z', 'h'] marks para =
      split_chinese_sentences para (some marks) (cs * 2) := by
    rw [paraSentences, if_pos rfl]
  by_cases htext : para = [] ∨ pyStrip para = []
  · -- degenerate: no sentences at all, so no chunks
    have hscs : split_chinese_sentences para (some marks) (cs * 2) = [] := by
      simp only [split_chinese_sentences, if_pos htext]
    have hproc : processedSentences List.length cs ['z', 'h'] marks para = [] := by
      rw [processedSentences, hpara, hscs]
      rfl
    rw [splitLongParagraph, hproc] at hck
    simp [mergePara, toPositionTuples] at hck
  · have hprimary : split_chinese_sentences para (some marks) (cs * 2) =
        ((cnScan marks [] para).map pyStrip).filter (· ≠ []) :=
      scs_eq_primary para marks (cs * 2) htext
        (fun s hs => le_trans (hfit s hs) (by omega))
    have hfit' : ∀ s ∈ paraSentences cs ['z', 'h'] marks para, s.length ≤ cs := by
      rw [hpara, hprimary]
      exact hfit
    have hne' : ∀ s ∈ paraSentences cs ['z', 'h'] marks para, s ≠ [] := by
      rw [hpara]
      exact fun s hs => (scs_members para (some marks) (cs * 2) s hs).2
    have hproc : processedSentences List.length cs ['z', 'h'] marks para =
        paraSentences cs ['z', 'h'] marks para :=
      processed_eq_of_fit cs ['z', 'h'] marks para hfit' hne'
    have hends : ∀ s ∈ (processedSentences List.length cs ['z', 'h'] marks
        para).dropLast, EndsMark marks s := by
      rw [hproc, hpara, hprimary]
      exact stripFilter_dropLast_ends marks hws (cnScan marks [] para)
        (cnScan_dropLast_ends marks para [])
    have hne'' : ∀ s ∈ processedSentences List.length cs ['z', 'h'] marks para,
        s ≠ [] := by
      rw [hproc]
      exact hne'
    have hmerge := mergePara_dropLast_ends List.length cs ov marks
      (processedSentences List.length cs ['z', 'h'] marks para) [] 0 []
      hne'' (by simp) hends (by simp) (by simp)
    rw [splitLongParagraph] at hck
    have hcontent : ck.2.2 ∈ (mergePara List.length cs ov
        (processedSentences List.length cs ['z', 'h'] marks para) [] 0 []).dropLast := by
      have hm := toPositionTuples_map ov paraStart (mergePara List.length cs ov
        (processedSentences List.length cs ['z', 'h'] marks para) [] 0 [])
      rw [← hm, ← List.map_dropLast]
      exact List.mem_map_of_mem _ hck
    exact hmerge ck.2.2 hcontent

/-- Witness for C4 (amended) at a concrete long paragraph. -/
theorem c4_sentence_integrity_witness :
    (∀ m ∈ defaultMarks, pyWs m = false) ∧
    (∀ s ∈ ((cnScan defaultMarks [] ['a', '。', 'b', '。']).map pyStrip).filter
        (· ≠ []), s.length ≤ 2) ∧
    ((0 : Int), (2 : Int), ['a', '。']) ∈
      (splitLongParagraph List.length 2 0 ['z', 'h'] defaultMarks
        ['a', '。', 'b', '。'] 0).dropLast ∧
    EndsMark defaultMarks (((((0 : Int), (2 : Int), ['a', '。'])) : Chunk)).2.2 :=
  ⟨by decide, by decide, by decide,
   c4_sentence_integrity 2 0 defaultMarks ['a', '。', 'b', '。'] 0 (by decide)
     (by decide) ((0 : Int), (2 : Int), ['a', '。']) (by decide)⟩

/-- The text `"abcd efg\n# H\n"` used by the C7 counterexample; it
contains no protected-pattern match. -/
def c7text : List Char :=
  ['a', 'b', 'c', 'd', ' ', 'e', 'f', 'g', '\n', '#', ' ', 'H', '\n']

/-- Counterexample to C7 as stated: in legacy mode a second invocation of
`split_text` on the *same* splitter instance (so with the header-tracker
state left by the first call) yields a different chunk sequence: the first
call ends with heading state `"# H"`, and the second call injects that
heading into its middle chunk (`"# Hefg\n"` instead of `"efg\n"`). -/
theorem c7_counterexample :
    (split_text (mkCfg 8 0 false) [] [] c7text).1 =
      some [((0 : Int), (5 : Int), ['a', 'b', 'c', 'd', ' ']),
            ((5 : Int), (9 : Int), ['e', 'f', 'g', '\n']),
            ((9 : Int), (13 : Int), ['#', ' ', 'H', '\n'])] ∧
    (split_text (mkCfg 8 0 false) [] [] c7text).2 = ['#', ' ', 'H'] ∧
    (split_text (mkCfg 8 0 false) []
        (split_text (mkCfg 8 0 false) [] [] c7text).2 c7text).1 =
      some [((0 : Int), (5 : Int), ['a', 'b', 'c', 'd', ' ']),
            ((2 : Int), (9 : Int), ['#', ' ', 'H', 'e', 'f', 'g', '\n']),
            ((9 : Int), (13 : Int), ['#', ' ', 'H', '\n'])] ∧
    (split_text (mkCfg 8 0 false) []
        (split_text (mkCfg 8 0 false) [] [] c7text).2 c7text).1 ≠
      (split_text (mkCfg 8 0 false) [] [] c7text).1 := by
  refine ⟨by decide, by decide, by decide, ?_⟩
  decide

/-- C7 (amended): `split_text` is a pure function of the text, the
configuration, the match list and the header-tracker state, hence
deterministic; in paragraph-aware mode the tracker is untouched, so a
second invocation on the same instance returns the identical chunk
sequence.  In legacy mode the tracker state carried on the instance can
change between calls, and a second invocation may differ (see the
counterexample). -/
theorem c7_idempotent_paragraph_aware (cfg : Config)
    (hpa : cfg.paragraph_aware = true) (ms1 ms2 : List (Nat × Nat))
    (hook : List Char) (text : List Char) :
    (split_text cfg ms2 (split_text cfg ms1 hook text).2 text).1 =
      (split_text cfg ms1 hook text).1 ∧
    (split_text cfg ms1 hook text).2 = hook := by
  by_cases h0 : text = [] <;> simp [split_text, h0, hpa]

/-- Witness for C7 (amended) at a concrete input. -/
theorem c7_idempotent_paragraph_aware_witness :
    (mkCfg 200 50 true).paragraph_aware = true ∧
    ((split_text (mkCfg 200 50 true) []
        (split_text (mkCfg 200 50 true) [] [] ['a', '。']).2 ['a', '。']).1 =
      (split_text (mkCfg 200 50 true) [] [] ['a', '。']).1 ∧
     (split_text (mkCfg 200 50 true) [] [] ['a', '。']).2 = []) :=
  ⟨by decide, c7_idempotent_paragraph_aware (mkCfg 200 50 true) (by decide) [] [] [] ['a', '。']⟩

/-! ### C1: reconstruction, part 1 — the unit splitter joins back -/

theorem sl_self (t : List Char) (a : Nat) : sl t a a = [] := by
  simp [sl]

theorem splitKeepSepF_flatten (sep : List Char) (fuel : Nat) (acc text : List Char) :
    (splitKeepSepF sep fuel acc text).flatten = acc.reverse ++ text := by
  induction fuel, acc, text using splitKeepSepF.induct sep with
  | case1 t => simp [splitKeepSepF]
  | case2 t acc hacc => simp [splitKeepSepF, if_neg hacc]
  | case3 acc text htext =>
    cases text with
    | nil => exact absurd rfl (by intro h; exact htext h)
    | cons c rest => simp [splitKeepSepF]
  | case4 fuel acc c rest hcond ih =>
    rw [splitKeepSepF, if_pos hcond]
    simp only [List.flatten_cons, ih, List.reverse_nil, List.nil_append]
    have hpre : sep <+: (c :: rest) := by
      rw [← List.isPrefixOf_iff_prefix]
      exact hcond.2
    obtain ⟨t, ht⟩ := hpre
    rw [← ht, List.drop_left, List.append_assoc, ht]
  | case5 fuel acc c rest hcond ih =>
    rw [splitKeepSepF, if_neg hcond]
    rw [ih]
    simp

theorem splitKeepSepF_ne_nil (sep : List Char) (fuel : Nat) (acc text : List Char) :
    ∀ p ∈ splitKeepSepF sep fuel acc text, p ≠ [] := by
  induction fuel, acc, text using splitKeepSepF.induct sep with
  | case1 t => simp [splitKeepSepF]
  | case2 t acc hacc =>
    intro p hp
    rw [splitKeepSepF, if_neg hacc] at hp
    simp only [List.mem_singleton] at hp
    subst hp
    simpa using hacc
  | case3 acc text htext =>
    intro p hp
    cases text with
    | nil => exact absurd rfl (by intro h; exact htext h)
    | cons c rest =>
      rw [splitKeepSepF] at hp
      case x_3 => simp
      simp only [List.mem_singleton] at hp
      subst hp
      simp
  | case4 fuel acc c rest hcond ih =>
    intro p hp
    rw [splitKeepSepF, if_pos hcond] at hp
    rcases List.mem_cons.1 hp with rfl | hp
    · intro h0
      exact hcond.1 (List.append_eq_nil.1 h0).2
    · exact ih p hp
  | case5 fuel acc c rest hcond ih =>
    intro p hp
    rw [splitKeepSepF, if_neg hcond] at hp
    exact ih p hp

theorem splitByChar_flatten (text : List Char) : (splitByChar text).flatten = text := by
  induction text with
  | nil => rfl
  | cons c rest ih => simp [splitByChar] at ih ⊢; exact ih

theorem splitByChar_ne_nil (text : List Char) : ∀ p ∈ splitByChar text, p ≠ [] := by
  intro p hp
  rw [splitByChar, List.mem_map] at hp
  obtain ⟨c, _, rfl⟩ := hp
  simp

theorem firstSplit_flatten (fns : List (List Char → List (List Char)))
    (text : List Char) (hne : fns ≠ [])
    (h : ∀ f ∈ fns, (f text).flatten = text) :
    (firstSplit fns text).flatten = text := by
  induction fns with
  | nil => exact absurd rfl hne
  | cons f rest ih =>
    cases rest with
    | nil => exact h f (by simp)
    | cons g fs =>
      rw [firstSplit]
      split
      · exact h f (by simp)
      · exact ih (by simp) (fun f' hf' => h f' (by simp [hf']))

theorem firstSplit_ne_nil (fns : List (List Char → List (List Char)))
    (text : List Char) (hne : fns ≠ [])
    (h : ∀ f ∈ fns, ∀ p ∈ f text, p ≠ []) :
    ∀ p ∈ firstSplit fns text, p ≠ [] := by
  induction fns with
  | nil => exact absurd rfl hne
  | cons f rest ih =>
    cases rest with
    | nil => exact h f (by simp)
    | cons g fs =>
      rw [firstSplit]
      split
      · exact h f (by simp)
      · exact ih (by simp) (fun f' hf' => h f' (by simp [hf']))

/-- The split-function list used by `_split`: each function's output joins
back to the text, and its pieces are non-empty. -/
theorem splitFns_ok (seps : List (List Char)) (text : List Char) :
    ∀ f ∈ (seps.map splitKeepSep) ++ [splitByChar],
      (f text).flatten = text ∧ ∀ p ∈ f text, p ≠ [] := by
  intro f hf
  rcases List.mem_append.1 hf with h | h
  · rw [List.mem_map] at h
    obtain ⟨sep, _, rfl⟩ := h
    constructor
    · rw [splitKeepSep, splitKeepSepF_flatten]
      simp
    · exact splitKeepSepF_ne_nil sep text.length [] text
  · simp only [List.mem_singleton] at h
    subst h
    exact ⟨splitByChar_flatten text, splitByChar_ne_nil text⟩

theorem flatMap_flatten_id {α : Type} (pieces : List (List α))
    (g : List α → List (List α)) (h : ∀ p ∈ pieces, (g p).flatten = p) :
    (pieces.flatMap g).flatten = pieces.flatten := by
  induction pieces with
  | nil => rfl
  | cons p rest ih =>
    rw [List.flatMap_cons, List.flatten_append, h p (by simp),
      ih (fun q hq => h q (by simp [hq])), List.flatten_cons]

/-- `_split` loses no characters: the units join back to the input. -/
theorem splitUnitsF_flatten (lenFn : List Char → Nat) (cs : Nat)
    (seps : List (List Char)) (fuel : Nat) (text : List Char) :
    (splitUnitsF lenFn cs seps fuel text).flatten = text := by
  induction fuel generalizing text with
  | zero => simp [splitUnitsF]
  | succ fuel ih =>
    rw [splitUnitsF]
    split
    · simp
    · rw [flatMap_flatten_id]
      · exact firstSplit_flatten _ text (by simp)
          (fun f hf => (splitFns_ok seps text f hf).1)
      · intro p _
        split
        · simp
        · exact ih p

theorem splitUnits_flatten (lenFn : List Char → Nat) (cs : Nat)
    (seps : List (List Char)) (text : List Char) :
    (splitUnits lenFn cs seps text).flatten = text :=
  splitUnitsF_flatten lenFn cs seps text.length text

/-! ### C1: reconstruction, part 2 — `_join` preserves the text -/

/-- The span-list invariant threaded through `_join`: spans are chained
(ordered, non-overlapping), start at or after the current `point`, and are
literal slices of the text. -/
def SpanInvP (text : List Char) (ps : List PSpan) (point : Nat) : Prop :=
  SpansChain ps ∧ ∀ sp ∈ ps, point ≤ sp.start ∧ SpanOk text sp

theorem spansChain_head_le (p : PSpan) (ps : List PSpan)
    (h : SpansChain (p :: ps)) :
    ∀ sp ∈ ps, p.start + p.content.length ≤ sp.start := by
  induction ps generalizing p with
  | nil => simp
  | cons q qs ih =>
    intro sp hsp
    have h1 : p.start + p.content.length ≤ q.start := (List.chain'_cons.1 h).1
    rcases List.mem_cons.1 hsp with rfl | hsp
    · exact h1
    · have h2 := ih q (List.chain'_cons.1 h).2 sp hsp
      omega

theorem pySliceFrom_nonneg (s : List Char) (k : Int) (hk : 0 ≤ k) :
    pySliceFrom s k = s.drop k.toNat := by
  rw [pySliceFrom, if_neg (by omega)]

/-- Specification of the inner loop of `_join` (one split, `cur` being the
not-yet-emitted tail `text[point:stop]`): the emitted pieces concatenate
to `text[point:point']`, the remaining `cur` is `text[point':stop]`, and
the remaining spans still satisfy the invariant; moreover when the loop
leaves a non-empty `cur`, every remaining span starts at or after `stop`. -/
theorem joinLoop_spec (text : List Char) (ps : List PSpan) (cur : List Char)
    (point stop : Nat) (hcur : cur = sl text point stop)
    (hstop : stop ≤ text.length) (hpoint : point ≤ text.length)
    (hinv : SpanInvP text ps point) :
    (joinLoop ps cur point stop).1.flatten =
      sl text point (joinLoop ps cur point stop).2.2.2 ∧
    (joinLoop ps cur point stop).2.2.1 =
      sl text (joinLoop ps cur point stop).2.2.2 stop ∧
    point ≤ (joinLoop ps cur point stop).2.2.2 ∧
    (joinLoop ps cur point stop).2.2.2 ≤ text.length ∧
    SpanInvP text (joinLoop ps cur point stop).2.1
      (joinLoop ps cur point stop).2.2.2 ∧
    (∀ sp ∈ (joinLoop ps cur point stop).2.1, sp ∈ ps) ∧
    ((joinLoop ps cur point stop).2.2.1 ≠ [] →
      ∀ sp ∈ (joinLoop ps cur point stop).2.1, stop ≤ sp.start) := by
  induction ps generalizing cur point with
  | nil =>
    rw [joinLoop]
    refine ⟨by simp [sl_self], hcur, le_refl _, hpoint, ⟨List.chain'_nil, by simp⟩,
      by simp, by simp⟩
  | cons p ps ih =>
    have hpstart : point ≤ p.start := (hinv.2 p (by simp)).1
    have hok := (hinv.2 p (by simp)).2
    have hpend : p.start + p.content.length ≤ text.length := hok.1
    have hcontent : p.content = sl text p.start (p.start + p.content.length) := hok.2
    by_cases hstople : stop ≤ p.start
    · have hkey0 : joinLoop (p :: ps) cur point stop = ([], p :: ps, cur, point) := by
        rw [joinLoop, if_pos hstople]
      rw [hkey0]
      refine ⟨by simp [sl_self], hcur, le_refl _, hpoint,
        hinv, fun sp hsp => hsp, ?_⟩
      intro _ sp hsp
      rcases List.mem_cons.1 hsp with rfl | hsp
      · exact hstople
      · calc stop ≤ p.start := hstople
          _ ≤ p.start + p.content.length := Nat.le_add_right _ _
          _ ≤ sp.start := spansChain_head_le p ps hinv.1 sp hsp
    · have hstopgt : p.start < stop := by omega
      have hkey : joinLoop (p :: ps) cur point stop =
          (if sl text (p.start + p.content.length) stop = [] then
            ((if point < p.start then [sl text point p.start] else []) ++
              [p.content], ps, [], p.start + p.content.length)
          else
            ((if point < p.start then [sl text point p.start] else []) ++
                [p.content] ++
                (joinLoop ps (sl text (p.start + p.content.length) stop)
                  (p.start + p.content.length) stop).1,
              (joinLoop ps (sl text (p.start + p.content.length) stop)
                (p.start + p.content.length) stop).2.1,
              (joinLoop ps (sl text (p.start + p.content.length) stop)
                (p.start + p.content.length) stop).2.2.1,
              (joinLoop ps (sl text (p.start + p.content.length) stop)
                (p.start + p.content.length) stop).2.2.2)) := by
        rw [joinLoop, if_neg (by omega)]
        by_cases hlt : point < p.start
        · simp only [if_pos hlt]
          rw [hcur, sl_take text point stop p.start hpstart (le_of_lt hstopgt),
            sl_drop text point stop p.start hpstart]
          by_cases hlt2 : p.start < p.start + p.content.length
          · simp only [if_pos hlt2]
            rw [sl_drop text p.start stop (p.start + p.content.length)
              (Nat.le_add_right _ _)]
          · have h0 : p.start + p.content.length = p.start := by omega
            simp only [if_neg hlt2, h0]
            simp
        · have hpt : point = p.start := by omega
          simp only [if_neg hlt]
          rw [hcur, hpt]
          by_cases hlt2 : p.start < p.start + p.content.length
          · simp only [if_pos hlt2]
            rw [sl_drop text p.start stop (p.start + p.content.length)
              (Nat.le_add_right _ _)]
          · have h0 : p.start + p.content.length = p.start := by omega
            simp only [if_neg hlt2, h0]
            simp
      have hemfl : (if point < p.start then [sl text point p.start] else []).flatten
          = sl text point p.start := by
        split
        · simp
        · rename_i hnlt
          have hpt : point = p.start := by omega
          rw [hpt, sl_self]
          rfl
      rw [hkey]
      set pEnd := p.start + p.content.length with hpEnddef
      split
      · rename_i hcur2nil
        dsimp only
        refine ⟨?_, ?_, by omega, by omega, ?_, ?_, by simp⟩
        · simp only [List.flatten_append, List.flatten_cons, List.flatten_nil,
            List.append_nil]
          rw [hemfl, hcontent, sl_append_sl text point p.start pEnd hpstart
            (Nat.le_add_right _ _)]
        · exact hcur2nil.symm
        · refine ⟨(List.chain'_cons'.1 hinv.1).2, fun sp hsp => ?_⟩
          exact ⟨spansChain_head_le p ps hinv.1 sp hsp, (hinv.2 sp (by simp [hsp])).2⟩
        · exact fun sp hsp => List.mem_cons_of_mem _ hsp
      · rename_i hcur2ne
        dsimp only
        have hinv' : SpanInvP text ps pEnd :=
          ⟨(List.chain'_cons'.1 hinv.1).2, fun sp hsp =>
            ⟨spansChain_head_le p ps hinv.1 sp hsp, (hinv.2 sp (by simp [hsp])).2⟩⟩
        have hrec := ih (sl text pEnd stop) pEnd rfl hpend hinv'
        obtain ⟨h1, h2, h3, h4, h5, h6, h7⟩ := hrec
        refine ⟨?_, h2, by omega, h4, h5,
          fun sp hsp => List.mem_cons_of_mem _ (h6 sp hsp), h7⟩
        simp only [List.flatten_append, List.flatten_cons, List.flatten_nil,
          List.append_nil]
        rw [hemfl, h1, hcontent, List.append_assoc,
          sl_append_sl text p.start pEnd _ (Nat.le_add_right _ _) h3,
          sl_append_sl text point p.start _ hpstart (le_trans (Nat.le_add_right _ _) h3)]

/-- Specification of the outer loop of `_join`: when the splits
concatenate to `text[start:]` and the spans satisfy the invariant, the
output concatenates to `text[point:]`. -/
theorem joinGo_spec (text : List Char) (splits : List (List Char))
    (ps : List PSpan) (point start : Nat) (hstart : start ≤ point)
    (hpoint : point ≤ text.length) (hstartlen : start ≤ text.length)
    (hsplits : splits.flatten = text.drop start) (hinv : SpanInvP text ps point) :
    (joinGo splits ps point start).flatten = text.drop point := by
  induction splits generalizing ps point start with
  | nil =>
    have hlen : text.length ≤ point := by
      have := congrArg List.length hsplits
      simp only [List.flatten_nil, List.length_nil, List.length_drop] at this
      omega
    rw [joinGo, List.flatten_nil, List.drop_eq_nil_of_le hlen]
  | cons split rest ih =>
    have hlensum : split.length + rest.flatten.length = text.length - start := by
      have := congrArg List.length hsplits
      simp only [List.flatten_cons, List.length_append, List.length_drop] at this
      omega
    have hstoplen : start + split.length ≤ text.length := by omega
    have hsplit : split = sl text start (start + split.length) := by
      have h2 : ((split :: rest).flatten).take split.length = split := by
        rw [List.flatten_cons]
        exact List.take_left _ _
      rw [hsplits] at h2
      rw [sl, Nat.add_sub_cancel_left, h2]
    have hrest : rest.flatten = text.drop (start + split.length) := by
      have h1 : (split ++ rest.flatten).drop split.length = rest.flatten :=
        List.drop_left _ _
      rw [← h1, ← List.flatten_cons, hsplits, List.drop_drop, Nat.add_comm]
    have hcur : pySliceFrom split ((point : Int) - (start : Int)) =
        sl text point (start + split.length) := by
      rw [pySliceFrom_nonneg _ _ (by omega)]
      have h2 : ((point : Int) - (start : Int)).toNat = point - start := by omega
      rw [h2]
      have h3 : split.drop (point - start) =
          (sl text start (start + split.length)).drop (point - start) := by
        conv_lhs => rw [hsplit]
      rw [h3, sl_drop text start (start + split.length) point hstart]
    obtain ⟨h1, h2, h3, h4, h5, h6, h7⟩ :=
      joinLoop_spec text ps (pySliceFrom split ((point : Int) - (start : Int)))
        point (start + split.length) hcur hstoplen hpoint hinv
    rw [joinGo]
    split
    · rename_i hcurnil
      have hstople : start + split.length ≤
          (joinLoop ps (pySliceFrom split ((point : Int) - (start : Int)))
            point (start + split.length)).2.2.2 := by
        have hx := sl_nil_le text _ (start + split.length) (by rw [← h2, hcurnil])
        omega
      rw [List.flatten_append, h1,
        ih _ _ _ hstople h4 hstoplen hrest h5]
      exact sl_append_drop text point _ h3
    · rename_i hcurne
      have hinvstop : SpanInvP text
          (joinLoop ps (pySliceFrom split ((point : Int) - (start : Int)))
            point (start + split.length)).2.1 (start + split.length) :=
        ⟨h5.1, fun sp hsp => ⟨h7 hcurne sp hsp, (h5.2 sp hsp).2⟩⟩
      have hpointle : (joinLoop ps
          (pySliceFrom split ((point : Int) - (start : Int)))
            point (start + split.length)).2.2.2 ≤ start + split.length := by
        by_contra hcontra
        push_neg at hcontra
        exact hcurne (by rw [h2]; exact sl_eq_nil text _ _ (by omega))
      rw [List.flatten_append, List.flatten_append, List.flatten_cons,
        List.flatten_nil, List.append_nil, h1, h2,
        ih _ _ _ (le_refl _) hstoplen hstoplen hrest hinvstop,
        List.append_assoc, sl_append_drop text _ _ hpointle,
        sl_append_drop text point _ h3]

/-- Joining the recursive splits with the protected spans reconstructs
the input exactly (helper shared by several results). -/
theorem join_split_reconstruction (lenFn : List Char → Nat) (cs : Nat)
    (seps : List (List Char)) (text : List Char) (ms : List (Nat × Nat))
    (h : WFMatches text ms) :
    (joinSplits (splitUnits lenFn cs seps text)
      (splitProtected cs text ms)).flatten = text := by
  have hinv : SpanInvP text (splitProtected cs text ms) 0 := by
    obtain ⟨hchain, hall⟩ := splitProtected_inv cs text ms h
    refine ⟨hchain, fun sp hsp => ⟨Nat.zero_le _, (hall sp hsp).1⟩⟩
  rw [joinSplits, joinGo_spec text _ _ 0 0 (le_refl 0) (Nat.zero_le _)
    (Nat.zero_le _) (by rw [splitUnits_flatten, List.drop_zero]) hinv,
    List.drop_zero]

/-- C1: in legacy mode, joining the recursive splits with the protected
spans reconstructs the input exactly —
`"".join(_join(_split(text), _split_protected(text))) == text` — for every
text, every configuration (any length function, chunk size and separator
list) and every well-formed protected-pattern match list, so the
reconstruction assertion in `split_text` holds. -/
theorem c1_reconstruction (lenFn : List Char → Nat) (cs : Nat)
    (seps : List (List Char)) (text : List Char) (ms : List (Nat × Nat))
    (h : WFMatches text ms) :
    (joinSplits (splitUnits lenFn cs seps text)
      (splitProtected cs text ms)).flatten = text :=
  join_split_reconstruction lenFn cs seps text ms h

/-- Witness for C1 at a concrete input. -/
theorem c1_reconstruction_witness :
    WFMatches ['a', 'b', 'c', 'd'] [(1, 3)] ∧
    (joinSplits (splitUnits List.length 2 [['b']] ['a', 'b', 'c', 'd'])
      (splitProtected 2 ['a', 'b', 'c', 'd'] [(1, 3)])).flatten =
      ['a', 'b', 'c', 'd'] :=
  ⟨by decide,
   c1_reconstruction List.length 2 [['b']] ['a', 'b', 'c', 'd'] [(1, 3)] (by decide)⟩

/-! ### C5: no exceptions beyond the construction-time error -/

theorem mergeStep_cur_ne (lenFn : List Char → Nat) (cs ov : Nat) (st : MergeSt)
    (split : List Char) : (mergeStep lenFn cs ov st split).cur ≠ [] := by
  rw [mergeStep]
  split <;> split <;> simp

theorem foldl_mergeStep_cur_ne (lenFn : List Char → Nat) (cs ov : Nat)
    (splits : List (List Char)) (st : MergeSt) (h : splits ≠ []) :
    (splits.foldl (mergeStep lenFn cs ov) st).cur ≠ [] := by
  induction splits generalizing st with
  | nil => exact absurd rfl h
  | cons x xs ih =>
    rw [List.foldl_cons]
    cases hxs : xs with
    | nil => rw [List.foldl_nil]; exact mergeStep_cur_ne lenFn cs ov st x
    | cons y ys => rw [← hxs]; exact ih _ (by simp [hxs])

/-- Counterexample to C5 as stated: the claim quantifies over every
configuration with `chunk_overlap ≤ chunk_size`, including every
user-supplied length function.  With the constant length function
`fun _ => 1000`, `chunk_size = 5` and `chunk_overlap = 0` — a
configuration the constructor accepts (second conjunct) — the source
`_split` recurses forever on the one-character text `"a"`: the
character-level fallback returns that same text as its only piece, the
piece is still over `chunk_size`, and `_split` recurses on it unchanged,
so a `RecursionError` reaches the caller.  In the divergence-aware
embedding `splitUnitsD` no recursion depth produces a result. -/
theorem c5_counterexample :
    (∀ fuel : Nat, splitUnitsD (fun _ => 1000) 5 [] fuel ['a'] = none) ∧
    mkTextSplitter ⟨5, 0, [], false, [], [], fun _ => 1000⟩ =
      .ok ⟨5, 0, [], false, [], [], fun _ => 1000⟩ := by
  constructor
  · intro fuel
    induction fuel with
    | zero => rfl
    | succ n ih =>
      rw [splitUnitsD, if_neg (by decide)]
      have hfs : firstSplit (List.map splitKeepSep ([] : List (List Char)) ++
          [splitByChar]) ['a'] = [['a']] := rfl
      rw [hfs, List.foldr_cons, List.foldr_nil]
      try dsimp only
      rw [if_neg (by decide), ih]
  · rfl

/-- C5 (amended): with the default length function (character count), a
valid size (`chunk_size ≥ 1`) and `chunk_overlap ≤ chunk_size`,
`split_text` returns normally on every input, in both modes — in
particular the reconstruction assertion and the final non-empty-buffer
assertion in `_merge` never fail (modelled by `Option`: the result is
always `some`) — and the constructor raises its configuration error
exactly when `chunk_overlap > chunk_size`.  For an arbitrary user-supplied
length function the engine is not total: see the counterexample, where
`_split` recurses forever on a configuration the constructor accepts. -/
theorem c5_total_no_exceptions :
    (∀ (cs ov : Nat) (seps : List (List Char)) (pa : Bool)
       (lang marks : List Char) (ms : List (Nat × Nat)) (hook text : List Char),
      ov ≤ cs → 1 ≤ cs → WFMatches text ms →
      (split_text ⟨cs, ov, seps, pa, lang, marks, List.length⟩ ms hook
        text).1.isSome) ∧
    (∀ cfg : Config, mkTextSplitter cfg = .ok cfg ↔
      cfg.chunk_overlap ≤ cfg.chunk_size) := by
  constructor
  · intro cs ov seps pa lang marks ms hook text _ _ hwf
    rw [split_text]
    by_cases htext : text = []
    · rw [if_pos htext]
      simp
    · rw [if_neg htext]
      cases pa with
      | true =>
        have hpa : Config.paragraph_aware
            ⟨cs, ov, seps, true, lang, marks, List.length⟩ = true := rfl
        rw [hpa, if_pos rfl]
        simp
      | false =>
        have hpa : Config.paragraph_aware
            ⟨cs, ov, seps, false, lang, marks, List.length⟩ = false := rfl
        rw [hpa, if_neg (by simp)]
        try dsimp only
        have hrecon := join_split_reconstruction List.length cs seps text ms hwf
        rw [if_pos hrecon, mergeLegacy]
        have hne : joinSplits (splitUnits List.length cs seps text)
            (splitProtected cs text ms) ≠ [] := by
          intro h0
          rw [h0] at hrecon
          exact htext hrecon.symm
        rw [if_neg (foldl_mergeStep_cur_ne _ _ _ _ _ hne)]
        simp
  · intro cfg
    rw [mkTextSplitter]
    split
    · rename_i hgt
      constructor
      · intro h
        exact absurd h (by simp)
      · intro h
        omega
    · rename_i hle
      constructor
      · intro _
        omega
      · intro _
        rfl

/-- Witness for C5 (amended) at a concrete input. -/
theorem c5_total_no_exceptions_witness :
    (2 ≤ 8 ∧ 1 ≤ 8 ∧ WFMatches ['a', 'b'] [] ∧
      (split_text ⟨8, 2, defaultSeps, false, ['z', 'h'], defaultMarks,
        List.length⟩ [] [] ['a', 'b']).1.isSome) ∧
    (mkTextSplitter (mkCfg 8 2 false) = .ok (mkCfg 8 2 false) ↔
      (mkCfg 8 2 false).chunk_overlap ≤ (mkCfg 8 2 false).chunk_size) :=
  ⟨⟨by decide, by decide, by decide,
    c5_total_no_exceptions.1 8 2 defaultSeps false ['z', 'h'] defaultMarks
      [] [] ['a', 'b'] (by decide) (by decide) (by decide)⟩,
   c5_total_no_exceptions.2 (mkCfg 8 2 false)⟩

/-! ### C2: the chunk-size bound -/

/-- First sentence of the C2 counterexample paragraph: 49 characters plus
`。` (length 50). -/
def c2s1 : List Char := List.replicate 49 '天' ++ ['。']

/-- Second sentence: 179 characters plus `。` (length 180). -/
def c2s2 : List Char := List.replicate 179 '地' ++ ['。']

/-- A single 232-character paragraph of three sentences (no protected
pattern matches, no whitespace). -/
def c2text : List Char := c2s1 ++ c2s2 ++ ['完', '。']

/-- Counterexample to C2 as stated: in paragraph-aware mode with
`chunk_size = 200`, `chunk_overlap = 50`, the paragraph `c2text` produces
a middle chunk of length 230 > 200 whose content is the concatenation of
*two* sentences of lengths 50 and 180 — each within `chunk_size`, so the
chunk neither contains an oversized protected span (none exist in
paragraph-aware mode) nor a single unsplittable sentence.  The overlap
retention keeps the 50-character sentence and then appends the
180-character one without re-checking against `chunk_size`. -/
theorem c2_counterexample :
    ((split_text (mkCfg 200 50 true) [] [] c2text).1.map
      (fun l => l.map (fun ck => ck.2.2))) =
      some [c2s1, c2s1 ++ c2s2, ['完', '。']] ∧
    (c2s1 ++ c2s2).length = 230 ∧ 200 < (c2s1 ++ c2s2).length ∧
    c2s1.length ≤ 200 ∧ c2s2.length ≤ 200 ∧
    c2s1 ∈ processedSentences List.length 200 ['z', 'h'] defaultMarks c2text ∧
    c2s2 ∈ processedSentences List.length 200 ['z', 'h'] defaultMarks c2text := by
  set_option maxRecDepth 10000 in decide

theorem downSearch_some_le (t : List Char) (i stop j : Nat)
    (h : downSearch t i stop = some j) : j ≤ i := by
  induction i generalizing j with
  | zero => simp [downSearch] at h
  | succ i ih =>
    rw [downSearch] at h
    split at h
    · simp at h
    · split at h
      · injection h with h
        omega
      · exact Nat.le_succ_of_le (ih j h)

theorem upSearch_some_lt (t : List Char) (fuel i j : Nat)
    (h : upSearch t fuel i = some j) : j < i + fuel := by
  induction fuel generalizing i with
  | zero => simp [upSearch] at h
  | succ fuel ih =>
    rw [upSearch] at h
    split at h
    · injection h with h
      omega
    · have := ih (i + 1) h
      omega

/-- The forward window search overshoots `chunk_size` by at most
`window - 1 = 99`. -/
theorem sans_le (r : List Char) (cs : Nat) (hlen : cs < r.length) :
    split_at_nearest_space r cs 100 ≤ cs + 99 := by
  rw [split_at_nearest_space, if_neg (by omega)]
  cases hd : downSearch r cs (cs - 100) with
  | some j =>
    dsimp only
    have := downSearch_some_le r cs _ j hd
    omega
  | none =>
    dsimp only
    cases hu : upSearch r (min r.length (cs + 100) - cs) cs with
    | some j =>
      dsimp only
      have := upSearch_some_lt r _ cs j hu
      omega
    | none =>
      dsimp only
      omega

/-- Every fragment produced by the hard-split loop has length at most
`chunk_size + 99` (for a valid `chunk_size ≥ 1` and adequate fuel). -/
theorem hardSplitF_bound (cs fuel : Nat) (hcs : 1 ≤ cs) (r : List Char)
    (hfuel : r.length ≤ fuel) :
    ∀ s ∈ hardSplitF List.length cs fuel r, s.length ≤ cs + 99 := by
  induction fuel generalizing r with
  | zero =>
    intro s hs
    have hr : r = [] := List.length_eq_zero.1 (by omega)
    subst hr
    rw [hardSplitF] at hs
    rw [if_neg (by simp)] at hs
    simp at hs
  | succ fuel ih =>
    intro s hs
    rw [hardSplitF] at hs
    split at hs
    · rename_i hgt
      rcases List.mem_cons.1 hs with rfl | hs
      · calc (pyStrip (r.take (split_at_nearest_space r cs 100))).length
            ≤ (r.take (split_at_nearest_space r cs 100)).length := pyStrip_length_le _
          _ ≤ split_at_nearest_space r cs 100 := by
              rw [List.length_take]; omega
          _ ≤ cs + 99 := sans_le r cs (by omega)
      · refine ih (pyStrip (r.drop (split_at_nearest_space r cs 100))) ?_ s hs
        have hsp := sans_ge_one r cs hcs (by omega)
        calc (pyStrip (r.drop (split_at_nearest_space r cs 100))).length
            ≤ (r.drop (split_at_nearest_space r cs 100)).length := pyStrip_length_le _
          _ = r.length - split_at_nearest_space r cs 100 := List.length_drop _ _
          _ ≤ fuel := by omega
    · split at hs
      · simp at hs
      · rename_i hle _
        simp only [List.mem_singleton] at hs
        subst hs
        omega

theorem processed_bound (cs : Nat) (hcs : 1 ≤ cs) (lang marks para : List Char) :
    ∀ s ∈ processedSentences List.length cs lang marks para,
      s.length ≤ cs + 99 := by
  intro s hs
  rw [processedSentences, List.mem_flatMap] at hs
  obtain ⟨sent, _, hs⟩ := hs
  rw [hardSplit] at hs
  exact hardSplitF_bound cs sent.length hcs sent (le_refl _) s hs

theorem keepOverlapGo_sum (lenFn : List Char → Nat) (ov : Nat)
    (l kept : List (List Char)) (n : Nat) (h : n = (kept.map lenFn).sum) :
    (keepOverlapGo lenFn ov l kept n).2 =
      ((keepOverlapGo lenFn ov l kept n).1.map lenFn).sum := by
  induction l generalizing kept n with
  | nil => exact h
  | cons s rest ih =>
    rw [keepOverlapGo]
    split
    · exact h
    · exact ih (s :: kept) (n + lenFn s) (by simp [h]; omega)

theorem keepOverlapGo_le (lenFn : List Char → Nat) (ov : Nat)
    (l kept : List (List Char)) (n : Nat) (h : n ≤ ov) :
    (keepOverlapGo lenFn ov l kept n).2 ≤ ov := by
  induction l generalizing kept n with
  | nil => exact h
  | cons s rest ih =>
    rw [keepOverlapGo]
    split
    · exact h
    · rename_i hc
      exact ih (s :: kept) (n + lenFn s) (by omega)

theorem length_flatten_eq_sum (l : List (List Char)) :
    l.flatten.length = (l.map List.length).sum := by
  induction l with
  | nil => rfl
  | cons x xs ih => simp [List.flatten_cons, ih]

/-- Chunks produced by the paragraph-aware sentence merge are bounded by
`max chunk_size (chunk_overlap + B)` where `B` bounds every sentence. -/
theorem mergePara_bound (cs ov B : Nat) (sents buf : List (List Char))
    (curLen : Nat) (chunks0 : List (List Char))
    (hS : ∀ s ∈ sents, s.length ≤ B)
    (hsum : curLen = (buf.map List.length).sum)
    (hbound : curLen ≤ max cs (ov + B))
    (hC : ∀ c ∈ chunks0, c.length ≤ max cs (ov + B)) :
    ∀ c ∈ mergePara List.length cs ov sents buf curLen chunks0,
      c.length ≤ max cs (ov + B) := by
  induction sents generalizing buf curLen chunks0 with
  | nil =>
    intro c hc
    rw [mergePara] at hc
    rcases List.mem_append.1 hc with h | h
    · exact hC c h
    · split at h
      · simp at h
      · simp only [List.mem_singleton] at h
        subst h
        rw [length_flatten_eq_sum, ← hsum]
        exact hbound
  | cons s rest ih =>
    intro c hc
    rw [mergePara] at hc
    have hsB : s.length ≤ B := hS s (by simp)
    split at hc
    · rename_i hcond
      have hC' : ∀ x ∈ chunks0 ++ [buf.flatten], x.length ≤ max cs (ov + B) := by
        intro x hx
        rcases List.mem_append.1 hx with h | h
        · exact hC x h
        · simp only [List.mem_singleton] at h
          subst h
          rw [length_flatten_eq_sum, ← hsum]
          exact hbound
      split at hc
      · rename_i hov
        have hksum := keepOverlapGo_sum List.length ov buf.reverse [] 0 (by simp)
        have hkle := keepOverlapGo_le List.length ov buf.reverse [] 0 (Nat.zero_le _)
        refine ih _ _ _ (fun x hx => hS x (by simp [hx])) ?_ ?_ hC' c hc
        · rw [keepOverlap] at *
          simp only [List.map_append, List.map_cons, List.map_nil, List.sum_append]
          simp [← hksum]
        · rw [keepOverlap] at *
          have : (keepOverlapGo List.length ov buf.reverse [] 0).2 + s.length ≤ ov + B := by
            omega
          omega
      · refine ih _ _ _ (fun x hx => hS x (by simp [hx])) (by simp) ?_ hC' c hc
        have : s.length ≤ ov + B := by omega
        omega
    · rename_i hncond
      refine ih _ _ _ (fun x hx => hS x (by simp [hx])) ?_ ?_ hC c hc
      · simp [hsum]
      · by_cases hb : buf = []
        · subst hb
          simp at hsum
          subst hsum
          have : s.length ≤ ov + B := by omega
          omega
        · have : ¬ (cs < curLen + s.length ∧ buf ≠ []) := by
            simpa using hncond
          have hle : curLen + s.length ≤ cs := by
            rcases Classical.not_and_iff_or_not_not.1 this with h | h
            · omega
            · exact absurd hb (by simpa using h)
          omega

theorem flatten_pos (l : List (List Char)) (hne : l ≠ [])
    (h : ∀ q ∈ l, q ≠ []) : 1 ≤ l.flatten.length := by
  cases l with
  | nil => exact absurd rfl hne
  | cons q qs =>
    rw [List.flatten_cons, List.length_append]
    have : q ≠ [] := h q (by simp)
    have : 0 < q.length := List.length_pos.2 this
    omega

/-- A member of a many-piece non-empty decomposition is strictly shorter
than the whole. -/
theorem piece_lt_of_flatten (pieces : List (List Char)) (text : List Char)
    (hfl : pieces.flatten = text) (hne : ∀ q ∈ pieces, q ≠ [])
    (hmany : 1 < pieces.length) :
    ∀ p ∈ pieces, p.length < text.length := by
  intro p hp
  obtain ⟨l₁, l₂, rfl⟩ := List.append_of_mem hp
  have hlen : text.length = l₁.flatten.length + p.length + l₂.flatten.length := by
    rw [← hfl]
    simp [List.flatten_append, List.flatten_cons]
    omega
  have hcase : l₁ ≠ [] ∨ l₂ ≠ [] := by
    by_contra hc
    push_neg at hc
    obtain ⟨h1, h2⟩ := hc
    subst h1
    subst h2
    simp at hmany
  rcases hcase with hne1 | hne2
  · have := flatten_pos l₁ hne1 (fun q hq => hne q (by simp [hq]))
    omega
  · have := flatten_pos l₂ hne2 (fun q hq => hne q (by simp [hq]))
    omega

theorem firstSplit_char_many (l : List (List Char → List (List Char)))
    (text : List Char) (hlen : 2 ≤ text.length) :
    1 < (firstSplit (l ++ [splitByChar]) text).length := by
  induction l with
  | nil =>
    rw [List.nil_append, firstSplit, splitByChar, List.length_map]
    omega
  | cons f rest ih =>
    cases hr : rest ++ [splitByChar] with
    | nil => simp at hr
    | cons g fs =>
      rw [List.cons_append, hr, firstSplit]
      split
      · omega
      · rw [← hr]
        exact ih

/-- Every unit produced by `_split` (default length function, valid
`chunk_size ≥ 1`) has length at most `chunk_size`. -/
theorem splitUnitsF_bound (cs : Nat) (seps : List (List Char)) (fuel : Nat)
    (text : List Char) (hcs : 1 ≤ cs) (hfuel : text.length ≤ fuel) :
    ∀ u ∈ splitUnitsF List.length cs seps fuel text, u.length ≤ cs := by
  induction fuel generalizing text with
  | zero =>
    intro u hu
    rw [splitUnitsF] at hu
    simp only [List.mem_singleton] at hu
    subst hu
    omega
  | succ fuel ih =>
    intro u hu
    rw [splitUnitsF] at hu
    split at hu
    · simp only [List.mem_singleton] at hu
      subst hu
      assumption
    · rename_i hbig
      rw [List.mem_flatMap] at hu
      obtain ⟨p, hp, hu⟩ := hu
      have hfl : (firstSplit ((seps.map splitKeepSep) ++ [splitByChar]) text).flatten
          = text := firstSplit_flatten _ text (by simp)
        (fun f hf => (splitFns_ok seps text f hf).1)
      have hqne : ∀ q ∈ firstSplit ((seps.map splitKeepSep) ++ [splitByChar]) text,
          q ≠ [] := firstSplit_ne_nil _ text (by simp)
        (fun f hf => (splitFns_ok seps text f hf).2)
      have hmany : 1 < (firstSplit ((seps.map splitKeepSep) ++ [splitByChar])
          text).length := firstSplit_char_many _ text (by omega)
      have hplt : p.length < text.length :=
        piece_lt_of_flatten _ text hfl hqne hmany p hp
      split at hu
      · simp only [List.mem_singleton] at hu
        subst hu
        assumption
      · exact ih p (by omega) u hu

/-- Every span kept by `_split_protected` has content length strictly
below `chunk_size`. -/
theorem splitProtected_content_lt (cs : Nat) (text : List Char)
    (ms : List (Nat × Nat)) (h : WFMatches text ms) :
    ∀ sp ∈ splitProtected cs text ms, sp.content.length < cs := by
  intro sp hsp
  obtain ⟨m, hm, _, hcontent, hlt⟩ := (splitProtected_inv cs text ms h).2 sp hsp |>.2
  have hwf := h m hm
  have : sp.content.length = m.2 - m.1 := by
    rw [hcontent]
    exact sl_length_of_le text m.1 m.2 hwf.1 hwf.2
  omega

/-- Length/shape bound on the pieces emitted by the inner loop of `_join`:
each emitted piece is no longer than `cur` or is one of the span contents;
the remaining `cur` only shrinks, and the remaining spans are a subset. -/
theorem joinLoop_pieces (ps : List PSpan) (cur : List Char) (point stop : Nat) :
    (∀ e ∈ (joinLoop ps cur point stop).1,
      e.length ≤ cur.length ∨ ∃ sp ∈ ps, e = sp.content) ∧
    (joinLoop ps cur point stop).2.2.1.length ≤ cur.length ∧
    (∀ sp ∈ (joinLoop ps cur point stop).2.1, sp ∈ ps) := by
  induction ps generalizing cur point with
  | nil =>
    rw [joinLoop]
    exact ⟨by simp, le_refl _, by simp⟩
  | cons p ps ih =>
    by_cases hstople : stop ≤ p.start
    · have hkey : joinLoop (p :: ps) cur point stop = ([], p :: ps, cur, point) := by
        rw [joinLoop, if_pos hstople]
      rw [hkey]
      exact ⟨by simp, le_refl _, by simp⟩
    · set pEnd := p.start + p.content.length with hpEnd
      set em1 : List (List Char) :=
        if point < p.start then [cur.take (p.start - point)] else [] with hem1
      set cur1 : List Char :=
        if point < p.start then cur.drop (p.start - point) else cur with hcur1
      set point1 : Nat := if point < p.start then p.start else point with hpoint1
      set cur2 : List Char :=
        if point1 < pEnd then cur1.drop (pEnd - point1) else cur1 with hcur2
      set point2 : Nat := if point1 < pEnd then pEnd else point1 with hpoint2
      have hkey : joinLoop (p :: ps) cur point stop =
          (if cur2 = [] then (em1 ++ [p.content], ps, [], point2)
           else
             (em1 ++ [p.content] ++ (joinLoop ps cur2 point2 stop).1,
              (joinLoop ps cur2 point2 stop).2.1,
              (joinLoop ps cur2 point2 stop).2.2.1,
              (joinLoop ps cur2 point2 stop).2.2.2)) := by
        rw [joinLoop, if_neg hstople]
      have hemlen : ∀ e ∈ em1, e.length ≤ cur.length := by
        rw [hem1]
        split
        · intro e he
          simp only [List.mem_singleton] at he
          subst he
          rw [List.length_take]
          omega
        · simp
      have hcur1len : cur1.length ≤ cur.length := by
        rw [hcur1]
        split
        · rw [List.length_drop]
          omega
        · exact le_refl _
      have hcur2len : cur2.length ≤ cur.length := by
        rw [hcur2]
        split
        · rw [List.length_drop]
          omega
        · exact hcur1len
      rw [hkey]
      split
      · dsimp only
        refine ⟨?_, by simp, fun sp hsp => List.mem_cons_of_mem _ hsp⟩
        intro e he
        rcases List.mem_append.1 he with h | h
        · exact Or.inl (hemlen e h)
        · simp only [List.mem_singleton] at h
          subst h
          exact Or.inr ⟨p, by simp⟩
      · dsimp only
        obtain ⟨ih1, ih2, ih3⟩ := ih cur2 point2
        refine ⟨?_, le_trans ih2 hcur2len,
          fun sp hsp => List.mem_cons_of_mem _ (ih3 sp hsp)⟩
        intro e he
        rcases List.mem_append.1 he with h | h
        · rcases List.mem_append.1 h with h | h
          · exact Or.inl (hemlen e h)
          · simp only [List.mem_singleton] at h
            subst h
            exact Or.inr ⟨p, by simp⟩
        · rcases ih1 e h with h | ⟨sp, hsp, rfl⟩
          · exact Or.inl (le_trans h hcur2len)
          · exact Or.inr ⟨sp, by simp [hsp]⟩

/-- Every piece emitted by `_join` is bounded by some split's length or is
some span's content. -/
theorem joinGo_pieces (splits : List (List Char)) (ps : List PSpan)
    (point start : Nat) :
    ∀ e ∈ joinGo splits ps point start,
      (∃ s ∈ splits, e.length ≤ s.length) ∨ ∃ sp ∈ ps, e = sp.content := by
  induction splits generalizing ps point start with
  | nil => simp [joinGo]
  | cons split rest ih =>
    intro e he
    rw [joinGo] at he
    have hcurlen : (pySliceFrom split ((point : Int) - (start : Int))).length
        ≤ split.length := by
      rw [pySliceFrom]
      split <;> simpa using List.length_drop_le _ _
    obtain ⟨hl1, hl2, hl3⟩ := joinLoop_pieces ps
      (pySliceFrom split ((point : Int) - (start : Int))) point
      (start + split.length)
    split at he
    · rcases List.mem_append.1 he with h | h
      · rcases hl1 e h with h | ⟨sp, hsp, rfl⟩
        · exact Or.inl ⟨split, by simp, le_trans h hcurlen⟩
        · exact Or.inr ⟨sp, hsp, rfl⟩
      · rcases ih _ _ _ e h with ⟨s, hs, hle⟩ | ⟨sp, hsp, rfl⟩
        · exact Or.inl ⟨s, by simp [hs], hle⟩
        · exact Or.inr ⟨sp, hl3 sp hsp, rfl⟩
    · rcases List.mem_append.1 he with h | h
      · rcases List.mem_append.1 h with h | h
        · rcases hl1 e h with h | ⟨sp, hsp, rfl⟩
          · exact Or.inl ⟨split, by simp, le_trans h hcurlen⟩
          · exact Or.inr ⟨sp, hsp, rfl⟩
        · simp only [List.mem_singleton] at h
          subst h
          exact Or.inl ⟨split, by simp, le_trans hl2 hcurlen⟩
      · rcases ih _ _ _ e h with ⟨s, hs, hle⟩ | ⟨sp, hsp, rfl⟩
        · exact Or.inl ⟨s, by simp [hs], hle⟩
        · exact Or.inr ⟨sp, hl3 sp hsp, rfl⟩

theorem popLoop_sum (cs ov sLen hLen : Nat) (buf : List Chunk) (n : Nat)
    (h : n = (buf.map (fun c => c.2.2.length)).sum) :
    (popLoop List.length cs ov sLen hLen buf n).2 =
      ((popLoop List.length cs ov sLen hLen buf n).1.map
        (fun c => c.2.2.length)).sum := by
  induction buf generalizing n with
  | nil =>
    rw [popLoop]
    simpa using h
  | cons c rest ih =>
    rw [popLoop]
    split
    · refine ih _ ?_
      simp only [List.map_cons, List.sum_cons] at h
      omega
    · simpa using h

theorem popLoop_cases (cs ov sLen hLen : Nat) (buf : List Chunk) (n : Nat) :
    (popLoop List.length cs ov sLen hLen buf n).1 = [] ∨
    ((popLoop List.length cs ov sLen hLen buf n).2 ≤ ov ∧
     (popLoop List.length cs ov sLen hLen buf n).2 + sLen + hLen ≤ cs) := by
  induction buf generalizing n with
  | nil => exact Or.inl rfl
  | cons c rest ih =>
    rw [popLoop]
    split
    · exact ih _
    · rename_i hc
      push_neg at hc
      exact Or.inr ⟨by exact hc.1, by have := hc.2; omega⟩

theorem emitChunk_length (cur : List Chunk) :
    (emitChunk cur).2.2.length = (cur.map (fun c => c.2.2.length)).sum := by
  rw [emitChunk]
  dsimp only
  rw [length_flatten_eq_sum, List.map_map]
  rfl

/-- Invariant of one `_merge` iteration with the default length function:
the running length tracks the buffer's total content length, stays within
`chunk_size`, and every emitted chunk's content is within `chunk_size`. -/
theorem mergeStep_inv (cs ov : Nat) (st : MergeSt) (split : List Char)
    (hsplit : split.length ≤ cs)
    (h1 : st.curLen = (st.cur.map (fun c => c.2.2.length)).sum)
    (h2 : st.curLen ≤ cs)
    (h3 : ∀ c ∈ st.chunks, c.2.2.length ≤ cs) :
    (mergeStep List.length cs ov st split).curLen =
      ((mergeStep List.length cs ov st split).cur.map
        (fun c => c.2.2.length)).sum ∧
    (mergeStep List.length cs ov st split).curLen ≤ cs ∧
    ∀ c ∈ (mergeStep List.length cs ov st split).chunks, c.2.2.length ≤ cs := by
  simp only [mergeStep]
  by_cases hbig : (headerUpdate st.hook split).length > cs
  · simp only [if_pos hbig]
    have hnd : ¬(([] : List Char) ≠ [] ∧ split.length + 0 < cs ∧
        isSubstring ([] : List Char) split = false) := by simp
    simp only [if_neg hnd]
    have hsum := popLoop_sum cs ov split.length 0 st.cur st.curLen h1
    have hcases := popLoop_cases cs ov split.length 0 st.cur st.curLen
    split
    · rename_i hover
      refine ⟨?_, ?_, ?_⟩
      · try dsimp only
        rw [hsum]
        simp only [List.map_append, List.map_cons, List.map_nil,
          List.sum_append, List.sum_cons, List.sum_nil]
        try dsimp only
        omega
      · try dsimp only
        rcases hcases with hnil | ⟨_, hfit⟩
        · rw [hnil] at hsum
          simp only [List.map_nil, List.sum_nil] at hsum
          omega
        · omega
      · try dsimp only
        intro c hc
        split at hc
        · exact h3 c hc
        · rcases List.mem_append.1 hc with h | h
          · exact h3 c h
          · simp only [List.mem_singleton] at h
            subst h
            rw [emitChunk_length, ← h1]
            exact h2
    · rename_i hnover
      push_neg at hnover
      refine ⟨?_, ?_, h3⟩
      · try dsimp only
        rw [h1]
        simp only [List.map_append, List.map_cons, List.map_nil,
          List.sum_append, List.sum_cons, List.sum_nil]
        try dsimp only
        omega
      · try dsimp only
        omega
  · simp only [if_neg hbig]
    have hsum := popLoop_sum cs ov split.length
      (headerUpdate st.hook split).length st.cur st.curLen h1
    have hcases := popLoop_cases cs ov split.length
      (headerUpdate st.hook split).length st.cur st.curLen
    by_cases hdo : (headerUpdate st.hook split ≠ [] ∧
        split.length + (headerUpdate st.hook split).length < cs ∧
        isSubstring (headerUpdate st.hook split) split = false)
    · simp only [if_pos hdo]
      split
      · rename_i hover
        refine ⟨?_, ?_, ?_⟩
        · try dsimp only
          rw [hsum]
          simp only [List.map_append, List.map_cons, List.map_nil,
            List.sum_append, List.sum_cons, List.sum_nil]
          try dsimp only
          omega
        · try dsimp only
          rcases hcases with hnil | ⟨_, hfit⟩
          · rw [hnil] at hsum
            simp only [List.map_nil, List.sum_nil] at hsum
            have := hdo.2.1
            omega
          · omega
        · try dsimp only
          intro c hc
          split at hc
          · exact h3 c hc
          · rcases List.mem_append.1 hc with h | h
            · exact h3 c h
            · simp only [List.mem_singleton] at h
              subst h
              rw [emitChunk_length, ← h1]
              exact h2
      · rename_i hnover
        push_neg at hnover
        refine ⟨?_, ?_, h3⟩
        · try dsimp only
          rw [h1]
          simp only [List.map_append, List.map_cons, List.map_nil,
            List.sum_append, List.sum_cons, List.sum_nil]
          try dsimp only
          omega
        · try dsimp only
          omega
    · simp only [if_neg hdo]
      split
      · rename_i hover
        refine ⟨?_, ?_, ?_⟩
        · try dsimp only
          rw [hsum]
          simp only [List.map_append, List.map_cons, List.map_nil,
            List.sum_append, List.sum_cons, List.sum_nil]
          try dsimp only
          omega
        · try dsimp only
          rcases hcases with hnil | ⟨_, hfit⟩
          · rw [hnil] at hsum
            simp only [List.map_nil, List.sum_nil] at hsum
            omega
          · omega
        · try dsimp only
          intro c hc
          split at hc
          · exact h3 c hc
          · rcases List.mem_append.1 hc with h | h
            · exact h3 c h
            · simp only [List.mem_singleton] at h
              subst h
              rw [emitChunk_length, ← h1]
              exact h2
      · rename_i hnover
        push_neg at hnover
        refine ⟨?_, ?_, h3⟩
        · try dsimp only
          rw [h1]
          simp only [List.map_append, List.map_cons, List.map_nil,
            List.sum_append, List.sum_cons, List.sum_nil]
          try dsimp only
          omega
        · try dsimp only
          omega

theorem foldl_mergeStep_inv (cs ov : Nat) (splits : List (List Char))
    (st : MergeSt) (hS : ∀ s ∈ splits, s.length ≤ cs)
    (h1 : st.curLen = (st.cur.map (fun c => c.2.2.length)).sum)
    (h2 : st.curLen ≤ cs)
    (h3 : ∀ c ∈ st.chunks, c.2.2.length ≤ cs) :
    (splits.foldl (mergeStep List.length cs ov) st).curLen =
      ((splits.foldl (mergeStep List.length cs ov) st).cur.map
        (fun c => c.2.2.length)).sum ∧
    (splits.foldl (mergeStep List.length cs ov) st).curLen ≤ cs ∧
    ∀ c ∈ (splits.foldl (mergeStep List.length cs ov) st).chunks,
      c.2.2.length ≤ cs := by
  induction splits generalizing st with
  | nil => exact ⟨h1, h2, h3⟩
  | cons s rest ih =>
    rw [List.foldl_cons]
    obtain ⟨g1, g2, g3⟩ := mergeStep_inv cs ov st s (hS s (by simp)) h1 h2 h3
    exact ih _ (fun x hx => hS x (by simp [hx])) g1 g2 g3

/-- With the default length function, every chunk returned by `_merge` has
content length at most `chunk_size`, provided every incoming split does. -/
theorem mergeLegacy_bound (cs ov : Nat) (hook0 : List Char)
    (splits : List (List Char)) (hS : ∀ s ∈ splits, s.length ≤ cs)
    (chunks : List Chunk)
    (h : (mergeLegacy List.length cs ov hook0 splits).1 = some chunks) :
    ∀ c ∈ chunks, c.2.2.length ≤ cs := by
  obtain ⟨g1, g2, g3⟩ := foldl_mergeStep_inv cs ov splits ⟨[], [], 0, 0, hook0⟩
    hS (by simp) (Nat.zero_le _) (by simp)
  simp only [mergeLegacy] at h
  split at h
  · simp at h
  · dsimp only at h
    injection h with h
    subst h
    intro c hc
    rcases List.mem_append.1 hc with hcm | hcm
    · exact g3 c hcm
    · simp only [List.mem_singleton] at hcm
      subst hcm
      rw [emitChunk_length, ← g1]
      exact g2

/-- Every split entering the legacy merge (units joined with protected
spans) has length at most `chunk_size`. -/
theorem joined_bound (cs : Nat) (seps : List (List Char)) (text : List Char)
    (ms : List (Nat × Nat)) (hcs : 1 ≤ cs) (hwf : WFMatches text ms) :
    ∀ e ∈ joinSplits (splitUnits List.length cs seps text)
        (splitProtected cs text ms), e.length ≤ cs := by
  intro e he
  rw [joinSplits] at he
  rcases joinGo_pieces (splitUnits List.length cs seps text)
      (splitProtected cs text ms) 0 0 e he with ⟨s, hs, hle⟩ | ⟨sp, hsp, rfl⟩
  · rw [splitUnits] at hs
    exact le_trans hle
      (splitUnitsF_bound cs seps text.length text hcs (le_refl _) s hs)
  · exact le_of_lt (splitProtected_content_lt cs text ms hwf sp hsp)

/-- Every chunk of the paragraph-aware pipeline has content length at most
`chunk_size + chunk_overlap + 99` (the window/hard-split overshoot). -/
theorem paraAware_bound (cs ov : Nat) (hcs : 1 ≤ cs)
    (lang marks text : List Char) :
    ∀ c ∈ splitTextParagraphAware List.length cs ov lang marks text,
      c.2.2.length ≤ cs + ov + 99 := by
  intro c hc
  rw [splitTextParagraphAware] at hc
  simp only [List.mem_flatMap] at hc
  obtain ⟨p, hp, hc⟩ := hc
  split at hc
  · rename_i hshort
    simp only [List.mem_singleton] at hc
    subst hc
    dsimp only
    omega
  · rw [splitLongParagraph] at hc
    have hmem := toPositionTuples_content ov (p.1 : Int) _ c hc
    have hb := mergePara_bound cs ov (cs + 99)
      (processedSentences List.length cs lang marks p.2.2) [] 0 []
      (processed_bound cs hcs lang marks p.2.2) (by simp) (by simp) (by simp)
      c.2.2 hmem
    have hmax : max cs (ov + (cs + 99)) ≤ cs + ov + 99 := by
      apply max_le <;> omega
    omega

/-- C2 (amended): with the default length function and a valid
configuration (`chunk_size ≥ 1`, in-range protected-pattern matches),
every chunk returned by `split_text` in legacy mode has content length at
most `chunk_size`; in paragraph-aware mode a chunk's content may exceed
`chunk_size` (see the counterexample: overlap retention and the whole
current sentence are added without re-checking the limit), but it never
exceeds `chunk_size + chunk_overlap + 99`, the hard-split
space-search-window overshoot. -/
theorem c2_size_bound :
    (∀ (cs ov : Nat) (seps : List (List Char)) (hook text : List Char)
       (ms : List (Nat × Nat)) (lang marks : List Char) (chunks : List Chunk),
       1 ≤ cs → WFMatches text ms →
       (split_text ⟨cs, ov, seps, false, lang, marks, List.length⟩ ms hook
         text).1 = some chunks →
       ∀ c ∈ chunks, c.2.2.length ≤ cs) ∧
    (∀ (cs ov : Nat) (seps : List (List Char)) (hook text : List Char)
       (ms : List (Nat × Nat)) (lang marks : List Char) (chunks : List Chunk),
       1 ≤ cs →
       (split_text ⟨cs, ov, seps, true, lang, marks, List.length⟩ ms hook
         text).1 = some chunks →
       ∀ c ∈ chunks, c.2.2.length ≤ cs + ov + 99) := by
  constructor
  · intro cs ov seps hook text ms lang marks chunks hcs hwf h
    rw [split_text] at h
    by_cases htext : text = []
    · rw [if_pos htext] at h
      dsimp only at h
      injection h with h
      subst h
      simp
    · rw [if_neg htext] at h
      have hpa : Config.paragraph_aware
          ⟨cs, ov, seps, false, lang, marks, List.length⟩ = false := rfl
      rw [hpa] at h
      rw [if_neg (by simp)] at h
      dsimp only at h
      split at h
      · exact mergeLegacy_bound cs ov hook _
          (joined_bound cs seps text ms hcs hwf) chunks h
      · simp at h
  · intro cs ov seps hook text ms lang marks chunks hcs h
    rw [split_text] at h
    by_cases htext : text = []
    · rw [if_pos htext] at h
      dsimp only at h
      injection h with h
      subst h
      simp
    · rw [if_neg htext] at h
      have hpa : Config.paragraph_aware
          ⟨cs, ov, seps, true, lang, marks, List.length⟩ = true := rfl
      rw [hpa] at h
      rw [if_pos rfl] at h
      dsimp only at h
      injection h with h
      subst h
      exact paraAware_bound cs ov hcs lang marks text

/-- Witness for C2 (amended) at a concrete input: `chunk_size = 5`,
text `"ab"`, both modes. -/
theorem c2_size_bound_witness :
    ((1 ≤ 5 ∧ WFMatches ['a', 'b'] [] ∧
      (split_text ⟨5, 0, [], false, [], [], List.length⟩ [] [] ['a', 'b']).1
        = some [(0, 2, ['a', 'b'])]) ∧
      ∀ c ∈ [((0 : Int), (2 : Int), ['a', 'b'])], c.2.2.length ≤ 5) ∧
    ((1 ≤ 5 ∧
      (split_text ⟨5, 0, [], true, [], [], List.length⟩ [] [] ['a', 'b']).1
        = some [(0, 2, ['a', 'b'])]) ∧
      ∀ c ∈ [((0 : Int), (2 : Int), ['a', 'b'])], c.2.2.length ≤ 5 + 0 + 99) :=
  ⟨⟨⟨by decide, by decide, by decide⟩,
    c2_size_bound.1 5 0 [] [] ['a', 'b'] [] [] [] [(0, 2, ['a', 'b'])]
      (by decide) (by decide) (by decide)⟩,
   ⟨⟨by decide, by decide⟩,
    c2_size_bound.2 5 0 [] [] ['a', 'b'] [] [] [] [(0, 2, ['a', 'b'])]
      (by decide) (by decide)⟩⟩

theorem foldr_option_eq (l : List (List Char))
    (F : List Char → Option (List (List Char)))
    (G : List Char → List (List Char))
    (h : ∀ p ∈ l, F p = some (G p)) :
    l.foldr (fun p acc =>
        match F p, acc with
        | some here, some rest => some (here ++ rest)
        | _, _ => none) (some []) = some (l.flatMap G) := by
  induction l with
  | nil => rfl
  | cons p rest ih =>
    rw [List.foldr_cons, ih (fun q hq => h q (by simp [hq])), h p (by simp),
      List.flatMap_cons]

/-- On the faithful domain of the fueled `_split` (default length
function, `chunk_size ≥ 1`, fuel at least the text length), the
divergence-aware `splitUnitsD` returns exactly the fueled result: the
fuel-exhausted branches are never taken there. -/
theorem splitUnitsD_eq_some (cs : Nat) (seps : List (List Char)) (fuel : Nat)
    (text : List Char) (hcs : 1 ≤ cs) (hne : text ≠ [])
    (hfuel : text.length ≤ fuel) :
    splitUnitsD List.length cs seps fuel text =
      some (splitUnitsF List.length cs seps fuel text) := by
  induction fuel generalizing text with
  | zero =>
    refine absurd ?_ hne
    cases text with
    | nil => rfl
    | cons c rest => simp at hfuel
  | succ fuel ih =>
    rw [splitUnitsD, splitUnitsF]
    by_cases hfit : List.length text ≤ cs
    · rw [if_pos hfit, if_pos hfit]
    · rw [if_neg hfit, if_neg hfit]
      refine foldr_option_eq _
        (fun p => if List.length p ≤ cs then some [p]
          else splitUnitsD List.length cs seps fuel p)
        (fun p => if List.length p ≤ cs then [p]
          else splitUnitsF List.length cs seps fuel p) ?_
      intro p hp
      dsimp only
      by_cases hpfit : List.length p ≤ cs
      · rw [if_pos hpfit, if_pos hpfit]
      · rw [if_neg hpfit, if_neg hpfit]
        have hfl : (firstSplit ((seps.map splitKeepSep) ++ [splitByChar])
            text).flatten = text := firstSplit_flatten _ text (by simp)
          (fun f hf => (splitFns_ok seps text f hf).1)
        have hqne : ∀ q ∈ firstSplit ((seps.map splitKeepSep) ++ [splitByChar])
            text, q ≠ [] := firstSplit_ne_nil _ text (by simp)
          (fun f hf => (splitFns_ok seps text f hf).2)
        have hmany : 1 < (firstSplit ((seps.map splitKeepSep) ++ [splitByChar])
            text).length := firstSplit_char_many _ text (by omega)
        have hplt : p.length < text.length :=
          piece_lt_of_flatten _ text hfl hqne hmany p hp
        exact ih p (hqne p hp) (by omega)

/-- With an arbitrary length function the fueled `_split` can mask true
divergence: on the C5 counterexample configuration the divergence-aware
version yields no result at any depth, while the fueled version's answer
comes entirely from its fuel-exhausted branch. -/
theorem splitUnitsD_masks :
    splitUnitsD (fun _ => 1000) 5 [] 1 ['a'] = none ∧
    splitUnitsF (fun _ => 1000) 5 [] 1 ['a'] = [['a']] :=
  ⟨by decide, by decide⟩

end DocReader
